import Mathlib

/-!
Verification of the content-extraction core of the IITJ template generator
(`scripts/utils/latex_parser.py`, `scripts/utils/content_extractor.py`).

The Python code locates structural units in a LaTeX document with
`re.search`/`re.sub`/`re.findall` over fixed patterns.  The embedding below
models strings as `List Char` and implements each regex operation as an
executable left-to-right scanner whose semantics matches the regex engine on
the patterns actually used (leftmost match; lazy groups = shortest completion;
character classes as predicates).  Machine-level details that do not arise
(Unicode case folding beyond ASCII, locale whitespace) are modelled at the
ASCII level, which covers every name and token the extractor uses.
-/

namespace TemplateGen

/-- Strings are modelled as lists of characters. -/
abbrev Str := List Char

/-- Conversion from Lean string literals. -/
def toL (s : String) : Str := s.data

/-- Python's `\s` / `str.strip()` whitespace class (ASCII part):
space, tab, newline, carriage return, vertical tab, form feed. -/
def isWs (c : Char) : Bool :=
  c = ' ' || c = '\t' || c = '\n' || c = '\r' || c = '\x0b' || c = '\x0c'

/-- ASCII lower-casing at the code-point level, used to model `re.IGNORECASE`. -/
def lcn (n : Nat) : Nat := if 65 ≤ n ∧ n ≤ 90 then n + 32 else n

/-- Case-insensitive character comparison (ASCII, as used by `re.IGNORECASE`
on the extractor's all-ASCII patterns). -/
def lcEq (a b : Char) : Bool := lcn a.toNat == lcn b.toNat

/-- Case-sensitive "token is a literal prefix of the string". -/
def isPfx : Str → Str → Bool
  | [], _ => true
  | _ :: _, [] => false
  | t :: ts, s :: ss => t == s && isPfx ts ss

/-- Case-insensitive "token is a prefix of the string". -/
def ciPfx : Str → Str → Bool
  | [], _ => true
  | _ :: _, [] => false
  | t :: ts, s :: ss => lcEq t s && ciPfx ts ss

/-- Leftmost scan: split `s` as `a ++ b` where `b` is the first (longest)
suffix satisfying `p`; `none` when no nonempty suffix satisfies `p`.
This is the semantics of a lazy regex group followed by a lookahead/literal. -/
def scanSplit (p : Str → Bool) : Str → Option (Str × Str)
  | [] => none
  | c :: cs =>
    if p (c :: cs) then some ([], c :: cs)
    else
      match scanSplit p cs with
      | some (a, b) => some (c :: a, b)
      | none => none

/-- Leftmost search: run the position matcher `m` on every suffix of the input
in order (the semantics of `re.search`) and return the first success. -/
def searchO {α : Type} (m : Str → Option α) : Str → Option α
  | [] => m []
  | c :: cs =>
    match m (c :: cs) with
    | some r => some r
    | none => searchO m cs

/-- Python `str.rstrip()`-style removal of trailing whitespace. -/
def dropTrailWs : Str → Str
  | [] => []
  | c :: cs =>
    match dropTrailWs cs with
    | [] => if isWs c then [] else [c]
    | d :: ds => c :: d :: ds

/-- Python `str.strip()`. -/
def pyStrip (s : Str) : Str := dropTrailWs (s.dropWhile isWs)

/-- Replace every whitespace character by a plain space. -/
def wsToSp (c : Char) : Char := if isWs c then ' ' else c

/-- Collapse adjacent spaces to a single space. -/
def squeeze : Str → Str
  | [] => []
  | [c] => [c]
  | c₁ :: c₂ :: cs =>
    if c₁ = ' ' && c₂ = ' ' then squeeze (c₂ :: cs)
    else c₁ :: squeeze (c₂ :: cs)

/-- The semantics of `re.sub(r"\s+", " ", text)`: every maximal whitespace
run becomes one space. -/
def collapseWs (s : Str) : Str := squeeze (s.map wsToSp)

/-- Whether the string contains two adjacent spaces. -/
def hasTwoSp : Str → Bool
  | c₁ :: c₂ :: cs => (c₁ = ' ' && c₂ = ' ') || hasTwoSp (c₂ :: cs)
  | _ => false

/-! ### A generic model of `re.sub`

`rewriteF m fuel s` scans `s` left to right; at each position the match
function `m` either consumes a match (returning the replacement text and the
rest of the input after the match, which is what `re.sub` does: replacements
are never rescanned) or the current character is copied.  `fuel` only bounds
the recursion; `s.length` is always enough because `m` consumes at least one
character on success. -/
def rewriteF (m : Str → Option (Str × Str)) : Nat → Str → Str
  | _, [] => []
  | 0, s => s
  | fuel + 1, c :: cs =>
    match m (c :: cs) with
    | some (out, rest) => out ++ rewriteF m fuel rest
    | none => c :: rewriteF m fuel cs

/-- Match `\x7bX\x7d` at the head of `s`, `X` a nonempty run of non-`\x7d`
characters — the regex `\x7b[^\x7d]+\x7d`.  Since `takeWhile` stops either at
the end of the input or at the first `\x7d`, the run is properly closed
exactly when it is shorter than the remaining input.  Returns the argument
and the rest of the input after the closing brace. -/
def matchBraceArg (s : Str) : Option (Str × Str) :=
  if isPfx ['\x7b'] s then
    let r := s.drop 1
    let x := r.takeWhile (fun c => c ≠ '\x7d')
    if x.length < r.length ∧ ¬ x.isEmpty then some (x, r.drop (x.length + 1))
    else none
  else none

/-- Match `cmd ++ "\x7bARG\x7d"` at the head of `s` — the regex
`CMD\x7b[^\x7d]+\x7d`.  Returns the argument and the rest of the input. -/
def matchCmdArg (cmd : Str) (s : Str) : Option (Str × Str) :=
  if isPfx cmd s then matchBraceArg (s.drop cmd.length) else none

/-- Run a rewriter with its canonical fuel, the input length. -/
def rewriteTop (m : Str → Option (Str × Str)) (s : Str) : Str :=
  rewriteF m s.length s

/-- Matcher deleting `cmd ++ "\x7bARG\x7d"`. -/
def mRemove (cmd r : Str) : Option (Str × Str) :=
  (matchCmdArg cmd r).map (fun p => (([] : Str), p.2))

/-- `re.sub(CMD\x7b[^\x7d]+\x7d, "", text)`: delete the command with its argument. -/
def removeCmd (cmd s : Str) : Str := rewriteTop (mRemove cmd) s

/-- Matcher for `\citep?\x7bARG\x7d`: the greedy `p?` tries the longer
command name first. -/
def mRemove2 (cmd₁ cmd₂ r : Str) : Option (Str × Str) :=
  match matchCmdArg cmd₁ r, matchCmdArg cmd₂ r with
  | some p, _ => some (([] : Str), p.2)
  | none, some p => some (([] : Str), p.2)
  | none, none => none

/-- `re.sub(r"\\citep?\x7b[^\x7d]+\x7d", "", text)`. -/
def removeCmd2 (cmd₁ cmd₂ s : Str) : Str := rewriteTop (mRemove2 cmd₁ cmd₂) s

/-- `re.sub(CMD\x7b([^\x7d]+)\x7d, r"\1", text)`: strip the command, keep the argument. -/
def unwrapCmd (cmd s : Str) : Str := rewriteTop (matchCmdArg cmd) s

/-- Match `\href\x7bURL\x7d\x7bDISPLAY\x7d` at the head, returning the display text. -/
def matchHref (s : Str) : Option (Str × Str) :=
  match matchCmdArg (toL "\\href") s with
  | some (_, rest) => matchBraceArg rest
  | none => none

/-- `re.sub(r"\\href\x7b[^\x7d]+\x7d\x7b([^\x7d]+)\x7d", r"\1", text)`. -/
def hrefSub (s : Str) : Str := rewriteTop matchHref s

/-- Matcher for a line comment `%.*` (up to, not including, the newline). -/
def mComment (r : Str) : Option (Str × Str) :=
  if isPfx ['%'] r then some ([], (r.drop 1).dropWhile (fun c => c ≠ '\n'))
  else none

/-- `re.sub(r"%.*$", "", text, flags=re.MULTILINE)`: each line is cut at its
first `%`; the newline itself is kept (`.` does not match it). -/
def removeComments (s : Str) : Str := rewriteTop mComment s

/-- The lazy `.*?\x7b[^\x7d]+\x7d` tail of the `\includegraphics` pattern: walk
forward (never across a newline, since `.` does not match `\n`) until a
braced argument matches; `none` when the line ends first. -/
def igArgScanF : Nat → Str → Option Str
  | _, [] => none
  | 0, _ => none
  | fuel + 1, c :: cs =>
    match matchBraceArg (c :: cs) with
    | some p => some p.2
    | none => if c = '\n' then none else igArgScanF fuel cs

/-- Matcher for the `\includegraphics` pattern. -/
def mIg (r : Str) : Option (Str × Str) :=
  if isPfx (toL "\\includegraphics") r then
    match igArgScanF r.length (r.drop 16) with
    | some rest => some ([], rest)
    | none => none
  else none

/-- `re.sub(r"\\includegraphics.*?\x7b[^\x7d]+\x7d", "", text)` (no DOTALL). -/
def removeIg (s : Str) : Str := rewriteTop mIg s

/-- Matcher deleting a literal begin token through the first following
end token (DOTALL). -/
def mEnvBlock (beginTok endTok r : Str) : Option (Str × Str) :=
  if isPfx beginTok r then
    match scanSplit (fun q => isPfx endTok q) (r.drop beginTok.length) with
    | some (_, atEnd) => some ([], atEnd.drop endTok.length)
    | none => none
  else none

/-- `re.sub(BEGIN.*?END, "", text, flags=re.DOTALL)` for a literal
begin/end token pair. -/
def removeEnvBlock (beginTok endTok s : Str) : Str :=
  rewriteTop (mEnvBlock beginTok endTok) s

/-- `clean_latex` (latex_parser.py lines 116-154): the fixed sequence of
`re.sub` passes followed by whitespace normalization and `strip()`. -/
def clean_latex (t : Str) : Str :=
  let t := removeCmd (toL "\\cite") t
  let t := removeCmd2 (toL "\\citep") (toL "\\cite") t
  let t := removeCmd (toL "\\ref") t
  let t := removeCmd (toL "\\label") t
  let t := unwrapCmd (toL "\\textbf") t
  let t := unwrapCmd (toL "\\textit") t
  let t := unwrapCmd (toL "\\emph") t
  let t := unwrapCmd (toL "\\texttt") t
  let t := removeCmd (toL "\\url") t
  let t := hrefSub t
  let t := removeComments t
  let t := removeIg t
  let t := removeEnvBlock (toL "\\begin\x7bfigure\x7d") (toL "\\end\x7bfigure\x7d") t
  let t := removeEnvBlock (toL "\\begin\x7btable\x7d") (toL "\\end\x7btable\x7d") t
  pyStrip (collapseWs t)

/-! ### Structural locators (latex_parser.py)

`extract_section` / `extract_subsection` / `extract_chapter` each try two
patterns in order with `re.DOTALL | re.IGNORECASE`:

  exact:  HEAD ++ name ++ "\x7d"  then a lazy group up to a boundary lookahead
  loose:  HEAD ++ ".*?" ++ name ++ ".*?\x7d" then the same lazy group/lookahead

The lazy groups mean "shortest completion"; because the set of possible
completions only shrinks as a lazy component advances, the backtracking
search is equivalent to taking the first name occurrence, then the first
`\x7d`, then the first boundary — which is what `looseHeadAt` computes. -/

/-- Boundary lookahead of the `\section` patterns:
`(?=\\section|\\chapter|\\end\x7bdocument\x7d)` (case-insensitive). -/
def secBnd (s : Str) : Bool :=
  ciPfx (toL "\\section") s || ciPfx (toL "\\chapter") s ||
    ciPfx (toL "\\end\x7bdocument\x7d") s

/-- Boundary lookahead of the `\subsection` patterns:
`(?=\\subsection|\\section|\\chapter)` — note: no end-of-document token. -/
def subBnd (s : Str) : Bool :=
  ciPfx (toL "\\subsection") s || ciPfx (toL "\\section") s ||
    ciPfx (toL "\\chapter") s

/-- Boundary lookahead of the `\chapter` patterns:
`(?=\\chapter|\\end\x7bdocument\x7d)`. -/
def chapBnd (s : Str) : Bool :=
  ciPfx (toL "\\chapter") s || ciPfx (toL "\\end\x7bdocument\x7d") s

/-- The exact pattern at one position: the full heading `head`
(e.g. `\section\x7bIntroduction\x7d`) followed by the lazy group up to the
first boundary position.  No boundary after the heading means no match. -/
def exactHeadAt (head : Str) (bnd : Str → Bool) (s : Str) : Option Str :=
  if ciPfx head s then (scanSplit bnd (s.drop head.length)).map Prod.fst
  else none

/-- The loose pattern at one position: `pre` (e.g. `\section\x7b`), then
`.*?name` (DOTALL: the wildcard also crosses `\x7d` and newlines), then
`.*?\x7d`, then the lazy group up to the first boundary position. -/
def looseHeadAt (pre name : Str) (bnd : Str → Bool) (s : Str) : Option Str :=
  if ciPfx pre s then
    match scanSplit (fun r => ciPfx name r) (s.drop pre.length) with
    | some (_, atName) =>
      match scanSplit (fun r => isPfx ['\x7d'] r) (atName.drop name.length) with
      | some (_, atBrace) => (scanSplit bnd (atBrace.drop 1)).map Prod.fst
      | none => none
    | none => none
  else none

/-- Shared shape of `extract_section`/`extract_subsection`/`extract_chapter`:
`re.search` the exact pattern, then the loose pattern; `strip()` the group. -/
def extract_marked (pre : Str) (bnd : Str → Bool) (content name : Str) :
    Option Str :=
  match searchO (exactHeadAt (pre ++ name ++ ['\x7d']) bnd) content with
  | some g => some (pyStrip g)
  | none => (searchO (looseHeadAt pre name bnd) content).map pyStrip

/-- `extract_section` (latex_parser.py lines 11-32). -/
def extract_section (content name : Str) : Option Str :=
  extract_marked (toL "\\section\x7b") secBnd content name

/-- `extract_subsection` (latex_parser.py lines 35-55). -/
def extract_subsection (content name : Str) : Option Str :=
  extract_marked (toL "\\subsection\x7b") subBnd content name

/-- `extract_chapter` (latex_parser.py lines 157-177). -/
def extract_chapter (content name : Str) : Option Str :=
  extract_marked (toL "\\chapter\x7b") chapBnd content name

/-- One position of `extract_environment`'s pattern
`\\begin\x7bENV\x7d(.*?)\\end\x7bENV\x7d` (DOTALL, case-SENSITIVE): the begin
token, then the lazy group up to the first end token, which is consumed. -/
def envAt (env : Str) (s : Str) : Option Str :=
  if isPfx (toL "\\begin\x7b" ++ env ++ ['\x7d']) s then
    (scanSplit (fun r => isPfx (toL "\\end\x7b" ++ env ++ ['\x7d']) r)
      (s.drop (env.length + 8))).map Prod.fst
  else none

/-- `extract_environment` (latex_parser.py lines 58-70). -/
def extract_environment (content env : Str) : Option Str :=
  (searchO (envAt env) content).map pyStrip

/-! ### List and paragraph extractors (latex_parser.py) -/

/-- The lookahead `(?=\\item|\\end)` terminating one item's body. -/
def itemTerm (s : Str) : Bool := isPfx (toL "\\item") s || isPfx (toL "\\end") s

/-- One position of `re.findall(r"\\item\s+(.*?)(?=\\item|\\end)", _, DOTALL)`:
`\item`, at least one whitespace character (greedy), then the lazy body up to
the next `\item`/`\end`.  A final item with no terminator does not match. -/
def matchItem (s : Str) : Option (Str × Str) :=
  if isPfx (toL "\\item") s then
    let r := s.drop 5
    let w := r.takeWhile isWs
    if w.isEmpty then none
    else
      match scanSplit itemTerm (r.drop w.length) with
      | some (body, rest) => some (body, rest)
      | none => none
  else none

/-- `re.findall` for the item pattern: scan left to right, collecting matches;
scanning resumes at the (zero-width) terminator of the previous match. -/
def scanItemsF : Nat → Str → List Str
  | _, [] => []
  | 0, _ => []
  | fuel + 1, c :: cs =>
    match matchItem (c :: cs) with
    | some (body, rest) => body :: scanItemsF fuel rest
    | none => scanItemsF fuel cs

/-- All raw item bodies of a block, in document order. -/
def scanItems (s : Str) : List Str := scanItemsF s.length s

/-- `extract_itemize_list` (latex_parser.py lines 73-84): keep the items whose
raw `strip()` is nonempty, and clean each kept item. -/
def extract_itemize_list (content : Str) : List Str :=
  (scanItems content).filterMap fun it =>
    let s := pyStrip it
    if s.isEmpty then none else some (clean_latex s)

/-- Boundary of the first-paragraph search:
`(?:\n\n|\\section|\\subsection)` (case-sensitive here). -/
def paraBoundary (s : Str) : Bool :=
  isPfx (toL "\n\n") s || isPfx (toL "\\section") s || isPfx (toL "\\subsection") s

/-- The span selected by `extract_first_paragraph` before cleaning: the
`lstrip()`-ed content up to the first boundary when
`re.search(r"^(.*?)(?:\n\n|\\section|\\subsection)", _, DOTALL)` matches
(the pattern is anchored, so only position 0 counts), else the first
`max_length` raw characters. -/
def firstParagraphSpan (content : Str) (maxLength : Nat) : Str :=
  let c := content.dropWhile isWs
  match scanSplit paraBoundary c with
  | some (before, _) => before
  | none => c.take maxLength

/-- Index of the last space of a string, if any. -/
def lastSpaceIdx : Str → Option Nat
  | [] => none
  | c :: cs =>
    match lastSpaceIdx cs with
    | some j => some (j + 1)
    | none => if c = ' ' then some 0 else none

/-- Python `s.rsplit(" ", 1)[0]`: everything before the last space
(the string itself when it has no space). -/
def rsplitSp (s : Str) : Str :=
  match lastSpaceIdx s with
  | some j => s.take j
  | none => s

/-- The ellipsis marker appended on truncation. -/
def ellipsis : Str := toL "..."

/-- `extract_first_paragraph` (latex_parser.py lines 87-113). -/
def extract_first_paragraph (content : Str) (maxLength : Nat) : Str :=
  let cleaned := clean_latex (firstParagraphSpan content maxLength)
  if maxLength < cleaned.length then rsplitSp (cleaned.take maxLength) ++ ellipsis
  else cleaned

/-! ### Section orchestrator and façade (content_extractor.py)

Python values appearing in the extraction result are modelled by `PyField`
(a string or a list of strings) and `PySection` (a per-section dict of
fields, or — for objectives — a bare list of strings).  A Python dict with
fixed literal keys is modelled as an association list in insertion order.

`if not x:` on an `Optional[str]` is Python truthiness: `None` and the empty
string are both falsy; `pyFalsy` models this. -/

/-- A field value of an extracted section: a string or a list of strings. -/
inductive PyField where
  | str : Str → PyField
  | strList : List Str → PyField
deriving DecidableEq

/-- A value of the five-key aggregate: a mapping of fields, or a bare list. -/
inductive PySection where
  | mapping : List (Str × PyField) → PySection
  | items : List Str → PySection
deriving DecidableEq

/-- Whether a `PySection` is a mapping (a Python dict). -/
def PySection.isMapping : PySection → Bool
  | .mapping _ => true
  | .items _ => false

/-- Python truthiness test `not x` for `x : Optional[str]`. -/
def pyFalsy : Option Str → Bool
  | none => true
  | some s => s.isEmpty

/-- Python `x or ""` for `x : Optional[str]` after the pipelines ran. -/
def pyOrEmpty : Option Str → Str
  | none => []
  | some s => if s.isEmpty then [] else s

/-- `ContentExtractor.extract_introduction` (content_extractor.py lines 51-91). -/
def extract_introduction (content : Str) : PySection :=
  let intro := extract_section content (toL "Introduction")
  let intro := if pyFalsy intro then extract_chapter content (toL "Introduction") else intro
  if pyFalsy intro then
    let ab := extract_environment content (toL "abstract")
    if pyFalsy ab then PySection.mapping []
    else
      PySection.mapping
        [(toL "motivation", .str (clean_latex (ab.getD []))),
         (toL "problem_statement", .str [])]
  else
    let ic := intro.getD []
    let motivation := extract_subsection ic (toL "Motivation")
    let motivation :=
      if pyFalsy motivation then extract_first_paragraph ic 400
      else extract_first_paragraph (motivation.getD []) 400
    let problem := extract_subsection ic (toL "Problem Statement")
    let problem := if pyFalsy problem then extract_subsection ic (toL "Problem") else problem
    let problem :=
      if pyFalsy problem then problem
      else some (extract_first_paragraph (problem.getD []) 300)
    PySection.mapping
      [(toL "motivation", .str motivation),
       (toL "problem_statement", .str (pyOrEmpty problem))]

/-- `ContentExtractor.extract_objectives` (content_extractor.py lines 93-116).
Returns a bare Python list of strings. -/
def extract_objectives (content : Str) : List Str :=
  let o := extract_section content (toL "Objectives")
  let o := if pyFalsy o then extract_subsection content (toL "Objectives") else o
  let o :=
    if pyFalsy o then
      let o₁ := extract_section content (toL "Research Objectives")
      if pyFalsy o₁ then
        let o₂ := extract_section content (toL "Project Objectives")
        if pyFalsy o₂ then extract_section content (toL "Goals") else o₂
      else o₁
    else o
  if pyFalsy o then [] else (extract_itemize_list (o.getD [])).take 5

/-- `ContentExtractor.extract_methodology` (content_extractor.py lines 118-161). -/
def extract_methodology (content : Str) : PySection :=
  let m := extract_section content (toL "Methodology")
  let m := if pyFalsy m then extract_chapter content (toL "Methodology") else m
  let m :=
    if pyFalsy m then
      let a := extract_section content (toL "Proposed Solution")
      if pyFalsy a then
        let b := extract_section content (toL "Approach")
        if pyFalsy b then
          let d := extract_section content (toL "Design")
          if pyFalsy d then extract_section content (toL "Implementation") else d
        else b
      else a
    else m
  if pyFalsy m then PySection.mapping []
  else
    let mc := m.getD []
    let overview := extract_first_paragraph mc 400
    let appr := extract_subsection mc (toL "Approach")
    let approaches :=
      if pyFalsy appr then [] else (extract_itemize_list (appr.getD [])).take 3
    let tech := extract_subsection mc (toL "Technologies")
    let tech := if pyFalsy tech then extract_subsection mc (toL "Tools") else tech
    let technologies :=
      if pyFalsy tech then [] else (extract_itemize_list (tech.getD [])).take 5
    PySection.mapping
      [(toL "overview", .str overview),
       (toL "approaches", .strList approaches),
       (toL "technologies", .strList technologies)]

/-- `ContentExtractor.extract_results` (content_extractor.py lines 163-201). -/
def extract_results (content : Str) : PySection :=
  let r := extract_section content (toL "Results")
  let r := if pyFalsy r then extract_chapter content (toL "Results") else r
  let r :=
    if pyFalsy r then
      let a := extract_section content (toL "Implementation")
      if pyFalsy a then
        let b := extract_section content (toL "Evaluation")
        if pyFalsy b then extract_section content (toL "Experiments") else b
      else a
    else r
  if pyFalsy r then PySection.mapping []
  else
    let rc := r.getD []
    let impl := extract_subsection rc (toL "Implementation")
    let implementation :=
      if pyFalsy impl then [] else (extract_itemize_list (impl.getD [])).take 4
    let ev := extract_subsection rc (toL "Evaluation")
    let evaluation :=
      if pyFalsy ev then extract_first_paragraph rc 300
      else extract_first_paragraph (ev.getD []) 300
    PySection.mapping
      [(toL "implementation", .strList implementation),
       (toL "evaluation", .str evaluation)]

/-- `ContentExtractor.extract_conclusion` (content_extractor.py lines 203-232). -/
def extract_conclusion (content : Str) : PySection :=
  let co := extract_section content (toL "Conclusion")
  let co := if pyFalsy co then extract_chapter content (toL "Conclusion") else co
  if pyFalsy co then PySection.mapping []
  else
    let cc := co.getD []
    let summary := extract_first_paragraph cc 400
    let fut := extract_subsection cc (toL "Future Work")
    let fut := if pyFalsy fut then extract_subsection cc (toL "Future Scope") else fut
    let future_work :=
      if pyFalsy fut then [] else (extract_itemize_list (fut.getD [])).take 4
    PySection.mapping
      [(toL "summary", .str summary),
       (toL "future_work", .strList future_work)]

/-- `ContentExtractor.extract_for_presentation` (content_extractor.py lines
37-49): the dict literal with the five pipeline calls, in source order. -/
def extract_for_presentation (content : Str) : List (Str × PySection) :=
  [(toL "introduction", extract_introduction content),
   (toL "objectives", PySection.items (extract_objectives content)),
   (toL "methodology", extract_methodology content),
   (toL "results", extract_results content),
   (toL "conclusion", extract_conclusion content)]

/-- The keys of a modelled Python dict, in insertion order. -/
def dictKeys (d : List (Str × PySection)) : List Str := d.map Prod.fst

/-- Python exceptions relevant to the façade. -/
inductive PyExn where
  | fileNotFound : Str → PyExn
  | other : Str → PyExn
deriving DecidableEq

/-- The `ContentExtractor` object state after `__init__`. -/
structure ContentExtractor where
  content : Str
  report_path : Str
deriving DecidableEq

/-- `ContentExtractor.__init__` (content_extractor.py lines 19-35).  The
filesystem is abstracted as a mapping from paths to optional contents;
a missing path raises `FileNotFoundError`. -/
def ContentExtractor.init (fs : Str → Option Str) (report_path : Str) :
    Except PyExn ContentExtractor :=
  match fs report_path with
  | none => .error (.fileNotFound report_path)
  | some data => .ok ⟨data, report_path⟩

/-- Exception-level model of the body of `extract_for_presentation`: the five
pipeline calls are evaluated in order inside a dict literal, and an exception
raised by any of them propagates — the method installs no handler
(content_extractor.py lines 43-49 contain no try/except). -/
def extractForPresentationE (i o m r c : Except PyExn PySection) :
    Except PyExn (List (Str × PySection)) := do
  let iv ← i
  let ov ← o
  let mv ← m
  let rv ← r
  let cv ← c
  pure [(toL "introduction", iv), (toL "objectives", ov), (toL "methodology", mv),
        (toL "results", rv), (toL "conclusion", cv)]

/-- `extract_content_from_report` (content_extractor.py lines 235-251):
`try:` construct the extractor and run the aggregate extraction,
`except Exception:` return `None`.  The construction is the only fallible
step (the five pipelines are total functions of the document text). -/
def extract_content_from_report (fs : Str → Option Str) (report_path : Str) :
    Option (List (Str × PySection)) :=
  match ContentExtractor.init fs report_path with
  | .error _ => none
  | .ok ex => some (extract_for_presentation ex.content)

/-- A matcher is consuming when every match eats at least one character. -/
def Consuming (m : Str → Option (Str × Str)) : Prop :=
  ∀ s out rest, m s = some (out, rest) → rest.length < s.length

/-- The case-insensitive normal form of a string, at the code-point level. -/
def lcnStr (s : Str) : List Nat := s.map (fun c => lcn c.toNat)

/-- A block of `\item ` entries, as assembled by a LaTeX list body. -/
def itemsBlock : List Str → Str
  | [] => []
  | b :: bs => toL "\\item " ++ (b ++ itemsBlock bs)

/-- The introduction pipeline's fallback chain is exhausted (each lookup is
falsy in the Python sense: `None` or the empty string). -/
def introNotFound (c : Str) : Prop :=
  pyFalsy (extract_section c (toL "Introduction")) = true
  ∧ pyFalsy (extract_chapter c (toL "Introduction")) = true
  ∧ pyFalsy (extract_environment c (toL "abstract")) = true

/-- The objectives pipeline's fallback chain is exhausted. -/
def objectivesNotFound (c : Str) : Prop :=
  pyFalsy (extract_section c (toL "Objectives")) = true
  ∧ pyFalsy (extract_subsection c (toL "Objectives")) = true
  ∧ pyFalsy (extract_section c (toL "Research Objectives")) = true
  ∧ pyFalsy (extract_section c (toL "Project Objectives")) = true
  ∧ pyFalsy (extract_section c (toL "Goals")) = true

/-- The methodology pipeline's fallback chain is exhausted. -/
def methodologyNotFound (c : Str) : Prop :=
  pyFalsy (extract_section c (toL "Methodology")) = true
  ∧ pyFalsy (extract_chapter c (toL "Methodology")) = true
  ∧ pyFalsy (extract_section c (toL "Proposed Solution")) = true
  ∧ pyFalsy (extract_section c (toL "Approach")) = true
  ∧ pyFalsy (extract_section c (toL "Design")) = true
  ∧ pyFalsy (extract_section c (toL "Implementation")) = true

/-- The results pipeline's fallback chain is exhausted. -/
def resultsNotFound (c : Str) : Prop :=
  pyFalsy (extract_section c (toL "Results")) = true
  ∧ pyFalsy (extract_chapter c (toL "Results")) = true
  ∧ pyFalsy (extract_section c (toL "Implementation")) = true
  ∧ pyFalsy (extract_section c (toL "Evaluation")) = true
  ∧ pyFalsy (extract_section c (toL "Experiments")) = true

/-- The conclusion pipeline's fallback chain is exhausted. -/
def conclusionNotFound (c : Str) : Prop :=
  pyFalsy (extract_section c (toL "Conclusion")) = true
  ∧ pyFalsy (extract_chapter c (toL "Conclusion")) = true

/-! ## Lemma layer: properties of the generic scanners -/

theorem isPfx_length {t s : Str} (h : isPfx t s = true) : t.length ≤ s.length := by
  induction t generalizing s with
  | nil => simp
  | cons c cs ih =>
    cases s with
    | nil => simp [isPfx] at h
    | cons d ds =>
      simp only [isPfx, Bool.and_eq_true] at h
      simpa using ih h.2

theorem isPfx_self_append (t u : Str) : isPfx t (t ++ u) = true := by
  induction t with
  | nil => simp [isPfx]
  | cons c cs ih => simp [isPfx, ih]

theorem isPfx_cons_false {c : Char} {t s : Str} (h : c ≠ (s.headD c)) :
    isPfx (c :: t) s = false := by
  cases s with
  | nil => simp [isPfx]
  | cons d ds =>
    simp only [List.headD] at h
    simp [isPfx, h]

theorem ciPfx_length {t s : Str} (h : ciPfx t s = true) : t.length ≤ s.length := by
  induction t generalizing s with
  | nil => simp
  | cons c cs ih =>
    cases s with
    | nil => simp [ciPfx] at h
    | cons d ds =>
      simp only [ciPfx, Bool.and_eq_true] at h
      simpa using ih h.2

theorem scanSplit_append {p : Str → Bool} :
    ∀ {s a b : Str}, scanSplit p s = some (a, b) → s = a ++ b := by
  intro s
  induction s with
  | nil => intro a b h; simp [scanSplit] at h
  | cons c cs ih =>
    intro a b h
    simp only [scanSplit] at h
    split at h
    · simp only [Option.some.injEq, Prod.mk.injEq] at h
      rw [← h.1, ← h.2]
      rfl
    · cases hm : scanSplit p cs with
      | none => rw [hm] at h; exact absurd h (by simp)
      | some ab =>
        obtain ⟨a', b'⟩ := ab
        rw [hm] at h
        simp only [Option.some.injEq, Prod.mk.injEq] at h
        rw [← h.1, ← h.2]
        simpa using ih hm

theorem scanSplit_prop {p : Str → Bool} :
    ∀ {s a b : Str}, scanSplit p s = some (a, b) → p b = true := by
  intro s
  induction s with
  | nil => intro a b h; simp [scanSplit] at h
  | cons c cs ih =>
    intro a b h
    simp only [scanSplit] at h
    split at h
    · simp only [Option.some.injEq, Prod.mk.injEq] at h
      rw [← h.2]; assumption
    · cases hm : scanSplit p cs with
      | none => rw [hm] at h; exact absurd h (by simp)
      | some ab =>
        obtain ⟨a', b'⟩ := ab
        rw [hm] at h
        simp only [Option.some.injEq, Prod.mk.injEq] at h
        rw [← h.2]
        exact ih hm

theorem scanSplit_none_iff {p : Str → Bool} {s : Str} :
    scanSplit p s = none ↔ ∀ k < s.length, p (s.drop k) = false := by
  induction s with
  | nil => simp [scanSplit]
  | cons c cs ih =>
    simp only [scanSplit]
    constructor
    · intro h k hk
      split at h
      · exact absurd h (by simp)
      · cases hm : scanSplit p cs with
        | some ab => rw [hm] at h; obtain ⟨a, b⟩ := ab; exact absurd h (by simp)
        | none =>
          match k with
          | 0 => simpa using Bool.of_not_eq_true (by assumption)
          | k + 1 =>
            simp only [List.length_cons, Nat.add_lt_add_iff_right] at hk
            exact (ih.mp hm) k hk
    · intro h
      have h0 : p (c :: cs) = false := by simpa using h 0 (by simp)
      rw [if_neg (by simp [h0])]
      have : scanSplit p cs = none := by
        refine ih.mpr fun k hk => ?_
        simpa using h (k + 1) (by simpa using hk)
      simp [this]

theorem scanSplit_of {p : Str → Bool} (xs : Str) {ys : Str} (hys : ys ≠ [])
    (hp : p ys = true)
    (hxs : ∀ k < xs.length, p ((xs ++ ys).drop k) = false) :
    scanSplit p (xs ++ ys) = some (xs, ys) := by
  induction xs with
  | nil =>
    cases ys with
    | nil => exact absurd rfl hys
    | cons y ys' => simp [scanSplit, hp]
  | cons x xs' ih =>
    have h0 : p (x :: (xs' ++ ys)) = false := by simpa using hxs 0 (by simp)
    have hrest : scanSplit p (xs' ++ ys) = some (xs', ys) := by
      refine ih fun k hk => ?_
      simpa using hxs (k + 1) (by simpa using hk)
    simp [scanSplit, h0, hrest]

theorem searchO_none_iff {α : Type} {m : Str → Option α} {s : Str} :
    searchO m s = none ↔ ∀ n, m (s.drop n) = none := by
  induction s with
  | nil =>
    simp only [searchO]
    constructor
    · intro h n; simpa using h
    · intro h; simpa using h 0
  | cons c cs ih =>
    simp only [searchO]
    constructor
    · intro h n
      cases hm : m (c :: cs) with
      | some r => rw [hm] at h; exact absurd h (by simp)
      | none =>
        rw [hm] at h
        match n with
        | 0 => simpa using hm
        | n + 1 => exact ih.mp h n
    · intro h
      have h0 : m (c :: cs) = none := by simpa using h 0
      rw [h0]
      exact ih.mpr fun n => by simpa using h (n + 1)

theorem searchO_head_some {α : Type} {m : Str → Option α} {s : Str} {r : α}
    (h : m s = some r) : searchO m s = some r := by
  cases s with
  | nil => simpa [searchO] using h
  | cons c cs => simp [searchO, h]

theorem searchO_append {α : Type} {m : Str → Option α} (xs : Str) {ys : Str}
    (h : ∀ k < xs.length, m ((xs ++ ys).drop k) = none) :
    searchO m (xs ++ ys) = searchO m ys := by
  induction xs with
  | nil => rfl
  | cons x xs' ih =>
    have h0 : m (x :: (xs' ++ ys)) = none := by simpa using h 0 (by simp)
    have hrec := ih fun k hk => by simpa using h (k + 1) (by simpa using hk)
    simp only [List.cons_append, searchO, List.append_eq]
    rw [h0]
    simpa using hrec

theorem searchO_congr {α : Type} {m₁ m₂ : Str → Option α}
    (h : ∀ s, m₁ s = m₂ s) (s : Str) : searchO m₁ s = searchO m₂ s := by
  induction s with
  | nil => simpa [searchO] using h []
  | cons c cs ih => simp only [searchO, h (c :: cs), ih]

theorem scanSplit_congr {p₁ p₂ : Str → Bool} (h : ∀ s, p₁ s = p₂ s) (s : Str) :
    scanSplit p₁ s = scanSplit p₂ s := by
  induction s with
  | nil => rfl
  | cons c cs ih => simp only [scanSplit, h (c :: cs), ih]

/-! #### rewriteF -/

theorem rewriteF_nil (m : Str → Option (Str × Str)) (f : Nat) :
    rewriteF m f [] = [] := by
  cases f <;> rfl

theorem rewriteF_id {m : Str → Option (Str × Str)} {s : Str}
    (h : ∀ k, m (s.drop k) = none) : ∀ f, rewriteF m f s = s := by
  induction s with
  | nil => intro f; exact rewriteF_nil m f
  | cons c cs ih =>
    intro f
    match f with
    | 0 => rfl
    | f + 1 =>
      have h0 : m (c :: cs) = none := by simpa using h 0
      simp only [rewriteF]
      rw [h0]
      simp only []
      exact congrArg (c :: ·) (ih (fun k => by simpa using h (k + 1)) f)

theorem rewriteF_fuel {m : Str → Option (Str × Str)} (hm : Consuming m) :
    ∀ f₁ f₂ s, s.length ≤ f₁ → s.length ≤ f₂ →
      rewriteF m f₁ s = rewriteF m f₂ s := by
  intro f₁
  induction f₁ with
  | zero =>
    intro f₂ s h₁ _
    have : s = [] := List.eq_nil_of_length_eq_zero (Nat.le_zero.mp h₁)
    subst this
    simp [rewriteF_nil]
  | succ f₁' ih =>
    intro f₂ s h₁ h₂
    cases s with
    | nil => simp [rewriteF_nil]
    | cons c cs =>
      have hf₂ : ∃ f₂', f₂ = f₂' + 1 := by
        cases f₂ with
        | zero => simp at h₂
        | succ n => exact ⟨n, rfl⟩
      obtain ⟨f₂', rfl⟩ := hf₂
      simp only [rewriteF]
      cases hmc : m (c :: cs) with
      | none =>
        simp only []
        have hcs₁ : cs.length ≤ f₁' := by simpa using h₁
        have hcs₂ : cs.length ≤ f₂' := by simpa using h₂
        rw [ih f₂' cs hcs₁ hcs₂]
      | some p =>
        obtain ⟨out, rest⟩ := p
        simp only []
        have hlt := hm _ _ _ hmc
        have hr₁ : rest.length ≤ f₁' := by
          have := Nat.lt_of_lt_of_le hlt h₁
          omega
        have hr₂ : rest.length ≤ f₂' := by
          have := Nat.lt_of_lt_of_le hlt h₂
          omega
        rw [ih f₂' rest hr₁ hr₂]

theorem rewriteTop_id {m : Str → Option (Str × Str)} {s : Str}
    (h : ∀ k, m (s.drop k) = none) : rewriteTop m s = s :=
  rewriteF_id h s.length

theorem rewriteTop_append {m : Str → Option (Str × Str)} (hm : Consuming m)
    (xs : Str) {ys : Str} (hx : ∀ k < xs.length, m ((xs ++ ys).drop k) = none) :
    rewriteTop m (xs ++ ys) = xs ++ rewriteTop m ys := by
  have key : ∀ f, (xs ++ ys).length ≤ f →
      rewriteF m f (xs ++ ys) = xs ++ rewriteF m ys.length ys := by
    induction xs with
    | nil =>
      intro f hf
      exact rewriteF_fuel hm f ys.length ys (by simpa using hf) (le_refl _)
    | cons x xs' ih =>
      intro f hf
      have hf1 : ∃ f', f = f' + 1 := by
        cases f with
        | zero => simp at hf
        | succ n => exact ⟨n, rfl⟩
      obtain ⟨f', rfl⟩ := hf1
      have h0 : m (x :: (xs' ++ ys)) = none := by simpa using hx 0 (by simp)
      simp only [List.cons_append, rewriteF, List.append_eq]
      rw [h0]
      simp only []
      have hlen : (xs' ++ ys).length ≤ f' := by
        simp only [List.cons_append, List.length_cons] at hf
        omega
      have := ih (fun k hk => by simpa using hx (k + 1) (by simpa using hk)) f' hlen
      rw [this]
  exact key (xs ++ ys).length (le_refl _)

/-! #### Consumption: every matcher eats at least one character on success -/

theorem matchBraceArg_spec {s x rest : Str} (h : matchBraceArg s = some (x, rest)) :
    rest.length + x.length + 2 = s.length ∧ 0 < x.length := by
  simp only [matchBraceArg] at h
  split at h
  case isFalse => exact absurd h (by simp)
  case isTrue hp =>
    split at h
    case isFalse => exact absurd h (by simp)
    case isTrue hc =>
      simp only [Option.some.injEq, Prod.mk.injEq] at h
      obtain ⟨hx, hrest⟩ := h
      subst hx
      subst hrest
      have hs1 : 1 ≤ s.length := by simpa using isPfx_length hp
      obtain ⟨hc1, hc2⟩ := hc
      have hpos : 0 < ((s.drop 1).takeWhile (fun c => c ≠ '\x7d')).length := by
        refine List.length_pos.mpr fun hnil => hc2 ?_
        rw [hnil]
        rfl
      refine ⟨?_, hpos⟩
      simp only [List.length_drop] at hc1 ⊢
      omega

theorem matchBraceArg_consumes : Consuming matchBraceArg := by
  intro s out rest h
  have := (matchBraceArg_spec h).1
  omega

theorem matchCmdArg_spec {cmd s x rest : Str}
    (h : matchCmdArg cmd s = some (x, rest)) :
    rest.length + x.length + 2 + cmd.length = s.length ∧ 0 < x.length := by
  simp only [matchCmdArg] at h
  split at h
  case isFalse => exact absurd h (by simp)
  case isTrue hp =>
    have hsp := matchBraceArg_spec h
    have hl : cmd.length ≤ s.length := isPfx_length hp
    simp only [List.length_drop] at hsp
    exact ⟨by omega, hsp.2⟩

theorem matchCmdArg_consumes (cmd : Str) : Consuming (matchCmdArg cmd) := by
  intro s out rest h
  have := (matchCmdArg_spec h).1
  omega

theorem mRemove_consumes (cmd : Str) : Consuming (mRemove cmd) := by
  intro s out rest h
  simp only [mRemove, Option.map_eq_some'] at h
  obtain ⟨⟨x, r⟩, hm, he⟩ := h
  simp only [Prod.mk.injEq] at he
  rw [← he.2]
  exact matchCmdArg_consumes cmd _ _ _ hm

theorem mRemove2_consumes (cmd₁ cmd₂ : Str) : Consuming (mRemove2 cmd₁ cmd₂) := by
  intro s out rest h
  simp only [mRemove2] at h
  cases h₁ : matchCmdArg cmd₁ s with
  | some p =>
    obtain ⟨x, r⟩ := p
    rw [h₁] at h
    simp only [Option.some.injEq, Prod.mk.injEq] at h
    rw [← h.2]
    exact matchCmdArg_consumes cmd₁ _ _ _ h₁
  | none =>
    rw [h₁] at h
    cases h₂ : matchCmdArg cmd₂ s with
    | some p =>
      obtain ⟨x, r⟩ := p
      rw [h₂] at h
      simp only [Option.some.injEq, Prod.mk.injEq] at h
      rw [← h.2]
      exact matchCmdArg_consumes cmd₂ _ _ _ h₂
    | none =>
      rw [h₂] at h
      exact absurd h (by simp)

theorem matchHref_consumes : Consuming matchHref := by
  intro s out rest h
  simp only [matchHref] at h
  cases h₁ : matchCmdArg (toL "\\href") s with
  | some p =>
    obtain ⟨url, rest₁⟩ := p
    rw [h₁] at h
    have ha := matchCmdArg_consumes _ _ _ _ h₁
    have hb := matchBraceArg_consumes _ _ _ h
    omega
  | none =>
    rw [h₁] at h
    exact absurd h (by simp)

theorem mComment_consumes : Consuming mComment := by
  intro s out rest h
  simp only [mComment] at h
  split at h
  case isFalse => exact absurd h (by simp)
  case isTrue hp =>
    simp only [Option.some.injEq, Prod.mk.injEq] at h
    have hs1 : 1 ≤ s.length := by simpa using isPfx_length hp
    have hd : ((s.drop 1).dropWhile (fun c => c ≠ '\n')).length ≤ (s.drop 1).length :=
      (List.dropWhile_sublist _).length_le
    rw [← h.2]
    simp only [List.length_drop] at hd
    omega

theorem igArgScanF_lt {f : Nat} :
    ∀ {s rest : Str}, igArgScanF f s = some rest → rest.length < s.length := by
  induction f with
  | zero =>
    intro s rest h
    cases s with
    | nil => simp [igArgScanF] at h
    | cons c cs => simp [igArgScanF] at h
  | succ f ih =>
    intro s rest h
    cases s with
    | nil => simp [igArgScanF] at h
    | cons c cs =>
      simp only [igArgScanF] at h
      cases hm : matchBraceArg (c :: cs) with
      | some p =>
        rw [hm] at h
        simp only [Option.some.injEq] at h
        have := matchBraceArg_consumes _ _ _ hm
        rw [← h]
        exact this
      | none =>
        rw [hm] at h
        simp only [] at h
        split at h
        · exact absurd h (by simp)
        · have := ih h
          simp only [List.length_cons]
          omega

theorem mIg_consumes : Consuming mIg := by
  intro s out rest h
  simp only [mIg] at h
  split at h
  case isFalse => exact absurd h (by simp)
  case isTrue hp =>
    cases hr : igArgScanF s.length (s.drop 16) with
    | some r =>
      rw [hr] at h
      simp only [Option.some.injEq, Prod.mk.injEq] at h
      have h₁ := igArgScanF_lt hr
      have h₂ : (16 : Nat) ≤ s.length := by
        have := isPfx_length hp
        simpa using this
      rw [← h.2]
      simp only [List.length_drop] at h₁
      omega
    | none =>
      rw [hr] at h
      exact absurd h (by simp)

theorem mEnvBlock_consumes (beginTok endTok : Str) (hb : beginTok ≠ []) :
    Consuming (mEnvBlock beginTok endTok) := by
  intro s out rest h
  simp only [mEnvBlock] at h
  split at h
  case isFalse => exact absurd h (by simp)
  case isTrue hp =>
    cases hscan : scanSplit (fun q => isPfx endTok q) (s.drop beginTok.length) with
    | some p =>
      obtain ⟨a, atEnd⟩ := p
      rw [hscan] at h
      simp only [Option.some.injEq, Prod.mk.injEq] at h
      have hsp := scanSplit_append hscan
      have hAtEnd : atEnd.length ≤ (s.drop beginTok.length).length := by
        rw [hsp]
        simp
      have hbl : 1 ≤ beginTok.length := by
        cases beginTok with
        | nil => exact absurd rfl hb
        | cons x xs => simp
      have hsl : beginTok.length ≤ s.length := isPfx_length hp
      rw [← h.2]
      have hend : (atEnd.drop endTok.length).length ≤ atEnd.length := by
        simp only [List.length_drop]
        omega
      simp only [List.length_drop] at hAtEnd ⊢
      omega
    | none =>
      rw [hscan] at h
      exact absurd h (by simp)

theorem matchItem_lt {s b rest : Str} (h : matchItem s = some (b, rest)) :
    rest.length < s.length := by
  simp only [matchItem] at h
  split at h
  case isFalse => exact absurd h (by simp)
  case isTrue hp =>
    split at h
    case isTrue => exact absurd h (by simp)
    case isFalse hw =>
      cases hscan : scanSplit itemTerm ((s.drop 5).drop ((s.drop 5).takeWhile isWs).length) with
      | some p =>
        obtain ⟨body, rest'⟩ := p
        rw [hscan] at h
        simp only [Option.some.injEq, Prod.mk.injEq] at h
        have hsp := scanSplit_append hscan
        have h5 : (5 : Nat) ≤ s.length := by
          have := isPfx_length hp
          simpa using this
        have hrest : rest'.length ≤ ((s.drop 5).drop ((s.drop 5).takeWhile isWs).length).length := by
          rw [hsp]
          simp
        have hwlen : 1 ≤ ((s.drop 5).takeWhile isWs).length := by
          refine List.length_pos.mpr fun hnil => ?_
          rw [hnil] at hw
          simp at hw
        rw [← h.2]
        simp only [List.length_drop] at hrest ⊢
        omega
      | none =>
        rw [hscan] at h
        exact absurd h (by simp)

/-! #### Matchers fail where their trigger character is absent -/

theorem drops_none_of_not_mem {α : Type} {m : Str → Option α} {bad : Char} {s : Str}
    (hnil : m [] = none) (hcons : ∀ c cs, c ≠ bad → m (c :: cs) = none)
    (hs : bad ∉ s) : ∀ k, m (s.drop k) = none := by
  intro k
  cases hd : s.drop k with
  | nil => exact hnil
  | cons c cs =>
    have hc : c ∈ s := by
      have hmem : c ∈ s.drop k := by rw [hd]; exact List.mem_cons_self c cs
      exact (List.drop_sublist k s).subset hmem
    exact hcons c cs (fun he => hs (he ▸ hc))

theorem rewriteTop_match {m : Str → Option (Str × Str)} (hm : Consuming m)
    {s out rest : Str} (h : m s = some (out, rest)) :
    rewriteTop m s = out ++ rewriteTop m rest := by
  have hlt := hm _ _ _ h
  cases s with
  | nil => simp at hlt
  | cons c cs =>
    have hle : rest.length ≤ cs.length := by
      simp only [List.length_cons] at hlt
      omega
    simp only [rewriteTop, List.length_cons, rewriteF]
    rw [h]
    simp only []
    rw [rewriteF_fuel hm cs.length rest.length rest hle (le_refl _)]

/-! #### Scanning past text that lacks a trigger character -/

theorem drop_append_head {xs : Str} (ys : Str) {k : Nat} (hk : k < xs.length) :
    ∃ c cs, (xs ++ ys).drop k = c :: cs ∧ c ∈ xs := by
  have h1 : (xs ++ ys).drop k = xs.drop k ++ ys :=
    List.drop_append_of_le_length (Nat.le_of_lt hk)
  cases hd : xs.drop k with
  | nil =>
    have : xs.length ≤ k := by
      have := congrArg List.length hd
      simp only [List.length_drop, List.length_nil] at this
      omega
    omega
  | cons c cs =>
    refine ⟨c, cs ++ ys, ?_, ?_⟩
    · rw [h1, hd]
      rfl
    · have : c ∈ xs.drop k := by rw [hd]; exact List.mem_cons_self c cs
      exact (List.drop_sublist k xs).subset this

theorem matcher_none_on_leading {α : Type} {m : Str → Option α} {bad : Char}
    (hcons : ∀ c cs, c ≠ bad → m (c :: cs) = none)
    {xs : Str} (hxs : bad ∉ xs) (ys : Str) :
    ∀ k < xs.length, m ((xs ++ ys).drop k) = none := by
  intro k hk
  obtain ⟨c, cs, heq, hmem⟩ := drop_append_head ys hk
  rw [heq]
  exact hcons c cs (fun h => hxs (h ▸ hmem))

theorem isPfx_bad_false {bad : Char} (tl : Str) {xs : Str} (ys : Str)
    (hxs : bad ∉ xs) :
    ∀ k < xs.length, isPfx (bad :: tl) ((xs ++ ys).drop k) = false := by
  intro k hk
  obtain ⟨c, cs, heq, hmem⟩ := drop_append_head ys hk
  rw [heq]
  refine isPfx_cons_false ?_
  simp only [List.headD]
  exact fun h => hxs (h ▸ hmem)

/-! ## Claim theorems -/

/-- C1: the claim says a matching section whose heading is the last
structural marker in the document (no following heading command and no
end-of-document marker) is still found, with its block bounded by
end-of-input.  The repository's own tests
(`test_extract_section_case_insensitive`,
`test_extract_section_with_special_chars` in `test_latex_parser.py`) assert
exactly this.  The code disagrees: its lookahead
`(?=\\section|\\chapter|\\end\x7bdocument\x7d)` must match for the pattern
to succeed, so on the test's own input the section is not found.  This
theorem evaluates the code at that failing input. -/
theorem c1_last_section_not_found :
    extract_section (toL "\\section\x7bINTRODUCTION\x7d\nContent") (toL "introduction")
        = none
      ∧ extract_section (toL "\\section\x7bProblem Statement\x7d\nContent")
          (toL "Problem Statement") = none
      ∧ extract_section
          (toL "\\section\x7bINTRODUCTION\x7d\nContent\\end\x7bdocument\x7d")
          (toL "introduction") = some (toL "Content") := by
  decide

/-- C2 counterexample: the claim says a failure inside a single pipeline is
caught inside `extract_for_presentation` and degrades to that pipeline's
empty value while the other four still contribute.  In the code the method
body is a plain dict literal of the five calls with no handler, so a raising
pipeline aborts the whole aggregate: in the exception-level model, an
erroring objectives pipeline makes the whole call error. -/
theorem c2_pipeline_error_aborts_aggregate :
    extractForPresentationE (.ok (PySection.mapping []))
        (.error (.other (toL "boom"))) (.ok (PySection.mapping []))
        (.ok (PySection.mapping [])) (.ok (PySection.mapping []))
      = .error (.other (toL "boom")) := rfl

/-- C2 (amended): `extract_for_presentation` never raises, but only because
each of the five pipeline functions is total; the method installs no
per-pipeline handler, so an exception in a pipeline would propagate out of
the aggregate call (first conjunct: the actual, total pipelines always give
an ok aggregate; second conjunct: an error in the second slot propagates,
aborting the contributions of every other pipeline). -/
theorem c2_extract_for_presentation_total_no_recovery (content : Str) :
    extractForPresentationE (.ok (extract_introduction content))
        (.ok (.items (extract_objectives content)))
        (.ok (extract_methodology content)) (.ok (extract_results content))
        (.ok (extract_conclusion content))
      = .ok (extract_for_presentation content)
    ∧ ∀ (e : PyExn) (i : PySection) (m r c : Except PyExn PySection),
        extractForPresentationE (.ok i) (.error e) m r c = .error e := by
  exact ⟨rfl, fun e i m r c => rfl⟩

/-- C3: opening a missing path raises `FileNotFoundError` from the
constructor, and the convenience entry point `extract_content_from_report`
converts any exception — construction is the only fallible step, the
pipelines being total — into `None`, never propagating: its result is `None`
exactly when the file is missing. -/
theorem c3_missing_file_none (fs : Str → Option Str) (p : Str) :
    (fs p = none → ContentExtractor.init fs p = .error (.fileNotFound p))
    ∧ (extract_content_from_report fs p = none ↔ fs p = none) := by
  constructor
  · intro h
    simp [ContentExtractor.init, h]
  · constructor
    · intro h
      cases hf : fs p with
      | none => rfl
      | some data =>
        simp [extract_content_from_report, ContentExtractor.init, hf] at h
    · intro h
      simp [extract_content_from_report, ContentExtractor.init, h]

/-- C3 witness: at the empty filesystem and a concrete path. -/
theorem c3_missing_file_none_witness :
    ContentExtractor.init (fun _ => none) (toL "report.tex")
        = .error (.fileNotFound (toL "report.tex"))
    ∧ extract_content_from_report (fun _ => none) (toL "report.tex") = none :=
  ⟨(c3_missing_file_none (fun _ => none) (toL "report.tex")).1 rfl,
   (c3_missing_file_none (fun _ => none) (toL "report.tex")).2.mpr rfl⟩

/-- C4 counterexample: the block `\item a\n\item b` contains two item
markers with non-empty bodies, but `extract_itemize_list` returns a single
item (the final item has no following `\item`/`\end` terminator, so the
findall pattern cannot match it); and in
`\item \cite\x7bx\x7d\n\end\x7bitemize\x7d` the single item's cleaned text
is empty yet it is kept (the filter tests the raw text, not the cleaned
text), contradicting "items whose cleaned text is empty are dropped". -/
theorem c4_exact_count_fails :
    extract_itemize_list (toL "\\item a\n\\item b") = [toL "a"]
    ∧ extract_itemize_list (toL "\\item \\cite\x7bx\x7d\n\\end\x7bitemize\x7d")
        = [[]] := by
  decide

/-- C7 counterexample: in this document the name "introduction" occurs only
in body text, never inside a heading title argument, yet the lookup
succeeds (the loose pattern's DOTALL wildcards cross the title's closing
brace), returning the stripped text after the next closing brace. -/
theorem c7_body_text_match :
    extract_section
        (toL "\\section\x7bAlpha\x7d text introduction more \\section\x7bBeta\x7d tail \\end\x7bdocument\x7d")
        (toL "introduction") = some (toL "tail")
    ∧ (scanSplit (fun r => ciPfx (toL "introduction") r) (toL "Alpha")).isNone = true
    ∧ (scanSplit (fun r => ciPfx (toL "introduction") r) (toL "Beta")).isNone = true := by
  decide

/-- C9 counterexample: the aggregate always carries the five keys, but the
objectives value is a bare Python list, not a mapping — and when the
objectives chain is exhausted it is the empty list, not the empty mapping
the claim asserts for every section. -/
theorem c9_objectives_value_not_mapping :
    extract_for_presentation []
      = [(toL "introduction", .mapping []), (toL "objectives", .items []),
         (toL "methodology", .mapping []), (toL "results", .mapping []),
         (toL "conclusion", .mapping [])]
    ∧ PySection.isMapping (.items []) = false
    ∧ PySection.items [] ≠ PySection.mapping [] := by
  refine ⟨by decide, rfl, by decide⟩

theorem envAt_none_head {env cs : Str} {c : Char} (hc : c ≠ '\\') :
    envAt env (c :: cs) = none := by
  have hfalse : isPfx (toL "\\begin\x7b" ++ (env ++ ['\x7d'])) (c :: cs) = false := by
    have hsh : toL "\\begin\x7b" ++ (env ++ ['\x7d'])
        = '\\' :: (toL "begin\x7b" ++ (env ++ ['\x7d'])) := rfl
    rw [hsh]
    refine isPfx_cons_false ?_
    simp only [List.headD]
    exact fun h => hc h.symm
  rw [envAt, if_neg]
  simp [hfalse]

/-- C10: `extract_environment` finds the first `\begin\x7bENV\x7d` and returns
the stripped text up to the first `\end\x7bENV\x7d` after it (first conjunct,
for an occurrence preceded by command-free text and with a command-free
body); the match is case-sensitive, so searching "abstract" does not find
`\begin\x7bAbstract\x7d` (second conjunct, with no begin/end pair the result
is `None` rather than an error); and for nested same-name environments the
block is truncated at the innermost first end marker (third conjunct). -/
theorem c10_extract_environment (pre body post env : Str)
    (hpre : '\\' ∉ pre) (hbody : '\\' ∉ body) :
    extract_environment
        (pre ++ ((toL "\\begin\x7b" ++ env ++ ['\x7d']) ++ (body ++
          ((toL "\\end\x7b" ++ env ++ ['\x7d']) ++ post)))) env
      = some (pyStrip body)
    ∧ extract_environment (toL "\\begin\x7bAbstract\x7dX\\end\x7bAbstract\x7d")
        (toL "abstract") = none
    ∧ extract_environment
        (toL "\\begin\x7bit\x7da\\begin\x7bit\x7db\\end\x7bit\x7dc\\end\x7bit\x7d")
        (toL "it") = some (toL "a\\begin\x7bit\x7db") := by
  refine ⟨?_, by decide, by decide⟩
  have hendsh : toL "\\end\x7b" ++ env ++ ['\x7d']
      = '\\' :: (toL "end\x7b" ++ env ++ ['\x7d']) := rfl
  have hbeglen : (toL "\\begin\x7b" ++ env ++ ['\x7d']).length = env.length + 8 := by
    have h7 : (toL "\\begin\x7b").length = 7 := rfl
    simp [h7]
    omega
  have hmatch : envAt env ((toL "\\begin\x7b" ++ env ++ ['\x7d']) ++ (body ++
      ((toL "\\end\x7b" ++ env ++ ['\x7d']) ++ post))) = some body := by
    rw [envAt]
    rw [if_pos (isPfx_self_append _ _)]
    rw [← hbeglen, List.drop_left]
    have hscan : scanSplit (fun r => isPfx (toL "\\end\x7b" ++ env ++ ['\x7d']) r)
        (body ++ ((toL "\\end\x7b" ++ env ++ ['\x7d']) ++ post))
        = some (body, (toL "\\end\x7b" ++ env ++ ['\x7d']) ++ post) := by
      refine scanSplit_of body ?_ ?_ ?_
      · rw [hendsh]
        simp
      · exact isPfx_self_append _ _
      · intro k hk
        rw [hendsh]
        exact isPfx_bad_false _ _ hbody k hk
    rw [hscan]
    rfl
  have hpass : searchO (envAt env) (pre ++ ((toL "\\begin\x7b" ++ env ++ ['\x7d']) ++
      (body ++ ((toL "\\end\x7b" ++ env ++ ['\x7d']) ++ post))))
      = searchO (envAt env) ((toL "\\begin\x7b" ++ env ++ ['\x7d']) ++
      (body ++ ((toL "\\end\x7b" ++ env ++ ['\x7d']) ++ post))) := by
    refine searchO_append pre ?_
    exact matcher_none_on_leading (fun c cs hc => envAt_none_head hc) hpre _
  rw [extract_environment, hpass, searchO_head_some hmatch]
  rfl

/-- C10 witness: the general conjunct applied at a concrete document. -/
theorem c10_extract_environment_witness :
    extract_environment (toL "x \\begin\x7bquote\x7d hi \\end\x7bquote\x7d y")
        (toL "quote") = some (toL "hi") := by
  have h := (c10_extract_environment (toL "x ") (toL " hi ") (toL " y")
      (toL "quote") (by decide) (by decide)).1
  have heq : (toL "x ") ++ ((toL "\\begin\x7b" ++ toL "quote" ++ ['\x7d']) ++
      ((toL " hi ") ++ ((toL "\\end\x7b" ++ toL "quote" ++ ['\x7d']) ++ (toL " y"))))
      = toL "x \\begin\x7bquote\x7d hi \\end\x7bquote\x7d y" := by decide
  rw [heq] at h
  rw [h]
  decide

/-! #### Case-insensitivity of the heading locators -/

theorem lcnStr_append (a b : Str) : lcnStr (a ++ b) = lcnStr a ++ lcnStr b := by
  simp [lcnStr]

theorem ciPfx_congr {t₁ t₂ : Str} (h : lcnStr t₁ = lcnStr t₂) (s : Str) :
    ciPfx t₁ s = ciPfx t₂ s := by
  induction t₁ generalizing t₂ s with
  | nil =>
    cases t₂ with
    | nil => rfl
    | cons b bs => simp [lcnStr] at h
  | cons a as ih =>
    cases t₂ with
    | nil => simp [lcnStr] at h
    | cons b bs =>
      simp only [lcnStr, List.map_cons, List.cons.injEq] at h
      cases s with
      | nil => rfl
      | cons c cs =>
        simp only [ciPfx]
        rw [ih (by simpa [lcnStr] using h.2) cs]
        have heq : lcEq a c = lcEq b c := by simp [lcEq, h.1]
        rw [heq]

theorem extract_marked_ci (pre : Str) (bnd : Str → Bool) (content : Str)
    {n₁ n₂ : Str} (h : lcnStr n₁ = lcnStr n₂) :
    extract_marked pre bnd content n₁ = extract_marked pre bnd content n₂ := by
  have hlen : n₁.length = n₂.length := by
    have := congrArg List.length h
    simpa [lcnStr] using this
  have hhead : ∀ s, exactHeadAt (pre ++ n₁ ++ ['\x7d']) bnd s
      = exactHeadAt (pre ++ n₂ ++ ['\x7d']) bnd s := by
    intro s
    unfold exactHeadAt
    have hci := @ciPfx_congr (pre ++ n₁ ++ ['\x7d']) (pre ++ n₂ ++ ['\x7d'])
      (by rw [lcnStr_append, lcnStr_append, lcnStr_append, lcnStr_append, h]) s
    rw [hci]
    have hl : (pre ++ n₁ ++ ['\x7d']).length = (pre ++ n₂ ++ ['\x7d']).length := by
      simp [hlen]
    rw [hl]
  have hloose : ∀ s, looseHeadAt pre n₁ bnd s = looseHeadAt pre n₂ bnd s := by
    intro s
    unfold looseHeadAt
    rw [scanSplit_congr (fun r => ciPfx_congr h r) (s.drop pre.length), hlen]
  unfold extract_marked
  rw [searchO_congr hhead content, searchO_congr hloose content]

/-- C7 (amended): heading lookup is case-insensitive (first conjunct: names
with the same case-insensitive normal form give identical results on every
document), and the exact-title strategy is tried first, its match winning
(second conjunct).  The further part of the original claim — that a lookup
succeeds only when the name occurs inside some heading's title argument —
is false: see the counterexample, where the loose pattern's DOTALL
wildcards cross the title's closing brace and match the name in body text. -/
theorem c7_lookup_ci_and_exact_first :
    (∀ content n₁ n₂ : Str, lcnStr n₁ = lcnStr n₂ →
        extract_section content n₁ = extract_section content n₂)
    ∧ (∀ content name g : Str,
        searchO (exactHeadAt (toL "\\section\x7b" ++ name ++ ['\x7d']) secBnd) content
          = some g →
        extract_section content name = some (pyStrip g)) := by
  constructor
  · intro content n₁ n₂ h
    exact extract_marked_ci _ _ content h
  · intro content name g h
    rw [extract_section, extract_marked, h]

/-- C7 witness: "INTRODUCTION" and "introduction" locate a heading titled
"Introduction" identically, and an exact-strategy match determines the
result at a concrete document. -/
theorem c7_lookup_ci_and_exact_first_witness :
    extract_section (toL "\\section\x7bIntroduction\x7d Body \\end\x7bdocument\x7d")
        (toL "INTRODUCTION")
      = extract_section (toL "\\section\x7bIntroduction\x7d Body \\end\x7bdocument\x7d")
        (toL "introduction")
    ∧ extract_section (toL "\\section\x7bGoals\x7d A \\chapter\x7bB\x7d") (toL "Goals")
      = some (toL "A") := by
  constructor
  · exact c7_lookup_ci_and_exact_first.1 _ _ _ (by decide)
  · have h2 := c7_lookup_ci_and_exact_first.2 (toL "\\section\x7bGoals\x7d A \\chapter\x7bB\x7d")
      (toL "Goals") (toL " A ") (by decide)
    rw [show pyStrip (toL " A ") = toL "A" from by decide] at h2
    exact h2

/-! #### The last-space characterization of `rsplit` -/

theorem lastSpaceIdx_none {s : Str} (h : lastSpaceIdx s = none) : ' ' ∉ s := by
  induction s with
  | nil => simp
  | cons c cs ih =>
    simp only [lastSpaceIdx] at h
    cases hm : lastSpaceIdx cs with
    | some j => rw [hm] at h; simp at h
    | none =>
      rw [hm] at h
      by_cases hc : c = ' '
      · rw [if_pos hc] at h
        simp at h
      · rw [if_neg hc] at h
        intro hmem
        rcases List.mem_cons.mp hmem with h1 | h1
        · exact hc h1.symm
        · exact ih hm h1

theorem lastSpaceIdx_some {s : Str} :
    ∀ {j : Nat}, lastSpaceIdx s = some j →
      s.get? j = some ' ' ∧ ∀ k, j < k → s.get? k ≠ some ' ' := by
  induction s with
  | nil => intro j h; simp [lastSpaceIdx] at h
  | cons c cs ih =>
    intro j h
    simp only [lastSpaceIdx] at h
    cases hm : lastSpaceIdx cs with
    | some j' =>
      rw [hm] at h
      simp only [Option.some.injEq] at h
      subst h
      obtain ⟨h1, h2⟩ := ih hm
      refine ⟨by simpa using h1, ?_⟩
      intro k hk
      match k with
      | 0 => omega
      | k + 1 =>
        simp only [List.get?_cons_succ]
        exact h2 k (by omega)
    | none =>
      rw [hm] at h
      by_cases hc : c = ' '
      · rw [if_pos hc] at h
        simp only [Option.some.injEq] at h
        subst h
        refine ⟨by simp [hc], ?_⟩
        intro k hk
        match k with
        | 0 => omega
        | k + 1 =>
          simp only [List.get?_cons_succ]
          intro habs
          exact lastSpaceIdx_none hm (List.get?_mem habs)
      · rw [if_neg hc] at h
        simp at h

/-- C5: the truncation contract of `extract_first_paragraph`.  For every text
and positive bound `L`: the result never exceeds `L` plus the length of the
ellipsis marker; when the cleaned selected span fits in `L` it is returned
unmodified; and when truncation occurs the cut falls exactly at the last
space at-or-before `L` (no space after the cut inside the window), with a
hard cut only when the window contains no space at all. -/
theorem c5_first_paragraph_truncation (content : Str) (L : Nat) (_hL : 0 < L) :
    (extract_first_paragraph content L).length ≤ L + ellipsis.length
    ∧ ((clean_latex (firstParagraphSpan content L)).length ≤ L →
        extract_first_paragraph content L = clean_latex (firstParagraphSpan content L))
    ∧ (L < (clean_latex (firstParagraphSpan content L)).length →
        match lastSpaceIdx ((clean_latex (firstParagraphSpan content L)).take L) with
        | some j =>
            extract_first_paragraph content L
                = ((clean_latex (firstParagraphSpan content L)).take L).take j ++ ellipsis
              ∧ ((clean_latex (firstParagraphSpan content L)).take L).get? j = some ' '
              ∧ ∀ k, j < k →
                  ((clean_latex (firstParagraphSpan content L)).take L).get? k ≠ some ' '
        | none =>
            extract_first_paragraph content L
                = (clean_latex (firstParagraphSpan content L)).take L ++ ellipsis
              ∧ ' ' ∉ (clean_latex (firstParagraphSpan content L)).take L) := by
  set cl := clean_latex (firstParagraphSpan content L) with hcl
  have hdef : extract_first_paragraph content L
      = if L < cl.length then rsplitSp (cl.take L) ++ ellipsis else cl := rfl
  have hellipsis : ellipsis.length = 3 := rfl
  refine ⟨?_, ?_, ?_⟩
  · rw [hdef]
    split
    · next hlt =>
      have h1 : (rsplitSp (cl.take L)).length ≤ L := by
        unfold rsplitSp
        cases hm : lastSpaceIdx (cl.take L) with
        | some j =>
          calc ((cl.take L).take j).length ≤ (cl.take L).length :=
                List.length_take_le' _ _
            _ ≤ L := List.length_take_le _ _
        | none => exact List.length_take_le _ _
      rw [List.length_append]
      omega
    · next hge => omega
  · intro hle
    rw [hdef, if_neg (by omega)]
  · intro hlt
    cases hm : lastSpaceIdx (cl.take L) with
    | some j =>
      obtain ⟨h1, h2⟩ := lastSpaceIdx_some hm
      refine ⟨?_, h1, h2⟩
      rw [hdef, if_pos hlt]
      unfold rsplitSp
      rw [hm]
    | none =>
      refine ⟨?_, lastSpaceIdx_none hm⟩
      rw [hdef, if_pos hlt]
      unfold rsplitSp
      rw [hm]

/-- C5 witness: a concrete truncation at the last word boundary. -/
theorem c5_first_paragraph_truncation_witness :
    (0 : Nat) < 10
    ∧ (extract_first_paragraph (toL "alpha beta gamma\n\nrest") 10).length
        ≤ 10 + ellipsis.length
    ∧ extract_first_paragraph (toL "alpha beta gamma\n\nrest") 10 = toL "alpha..." := by
  have h := c5_first_paragraph_truncation (toL "alpha beta gamma\n\nrest") 10 (by decide)
  exact ⟨by decide, h.1, by decide⟩

/-! #### The item scanner on well-formed blocks -/

theorem drop_head_mem {xs : Str} {k : Nat} (hk : k < xs.length) :
    ∃ c cs, xs.drop k = c :: cs ∧ c ∈ xs := by
  cases hd : xs.drop k with
  | nil =>
    have := congrArg List.length hd
    simp only [List.length_drop, List.length_nil] at this
    omega
  | cons c cs =>
    refine ⟨c, cs, rfl, ?_⟩
    have : c ∈ xs.drop k := by rw [hd]; exact List.mem_cons_self c cs
    exact (List.drop_sublist k xs).subset this

theorem itemTerm_false_head {c : Char} {cs : Str} (hc : c ≠ '\\') :
    itemTerm (c :: cs) = false := by
  have h1 : toL "\\item" = '\\' :: toL "item" := rfl
  have h2 : toL "\\end" = '\\' :: toL "end" := rfl
  have hf1 : isPfx (toL "\\item") (c :: cs) = false := by
    rw [h1]
    exact isPfx_cons_false (by simp only [List.headD]; exact fun h => hc h.symm)
  have hf2 : isPfx (toL "\\end") (c :: cs) = false := by
    rw [h2]
    exact isPfx_cons_false (by simp only [List.headD]; exact fun h => hc h.symm)
  simp [itemTerm, hf1, hf2]

theorem matchItem_none_head {c : Char} {cs : Str} (hc : c ≠ '\\') :
    matchItem (c :: cs) = none := by
  have h1 : toL "\\item" = '\\' :: toL "item" := rfl
  have hf : isPfx (toL "\\item") (c :: cs) = false := by
    rw [h1]
    exact isPfx_cons_false (by simp only [List.headD]; exact fun h => hc h.symm)
  simp [matchItem, hf]

theorem matchItem_nil : matchItem [] = none := by decide

theorem scanItemsF_fuel :
    ∀ f₁ f₂ s, s.length ≤ f₁ → s.length ≤ f₂ → scanItemsF f₁ s = scanItemsF f₂ s := by
  intro f₁
  induction f₁ with
  | zero =>
    intro f₂ s h₁ _
    have : s = [] := List.eq_nil_of_length_eq_zero (Nat.le_zero.mp h₁)
    subst this
    cases f₂ <;> rfl
  | succ f₁' ih =>
    intro f₂ s h₁ h₂
    cases s with
    | nil => cases f₂ <;> rfl
    | cons c cs =>
      have hf₂ : ∃ f₂', f₂ = f₂' + 1 := by
        cases f₂ with
        | zero => simp at h₂
        | succ n => exact ⟨n, rfl⟩
      obtain ⟨f₂', rfl⟩ := hf₂
      simp only [scanItemsF]
      cases hmc : matchItem (c :: cs) with
      | none =>
        simp only []
        have hcs₁ : cs.length ≤ f₁' := by simpa using h₁
        have hcs₂ : cs.length ≤ f₂' := by simpa using h₂
        rw [ih f₂' cs hcs₁ hcs₂]
      | some p =>
        obtain ⟨body, rest⟩ := p
        simp only []
        have hlt := matchItem_lt hmc
        simp only [List.length_cons] at hlt h₁ h₂
        rw [ih f₂' rest (by omega) (by omega)]

theorem scanItems_cons_match {s body rest : Str}
    (h : matchItem s = some (body, rest)) :
    scanItems s = body :: scanItems rest := by
  have hlt := matchItem_lt h
  cases s with
  | nil => simp at hlt
  | cons c cs =>
    simp only [scanItems, List.length_cons, scanItemsF]
    rw [h]
    simp only []
    simp only [List.length_cons] at hlt
    rw [scanItemsF_fuel cs.length rest.length rest (by omega) (le_refl _)]

theorem scanItems_none {s : Str} (h : ∀ k, matchItem (s.drop k) = none) :
    scanItems s = [] := by
  have key : ∀ f s, (∀ k, matchItem (s.drop k) = none) → scanItemsF f s = [] := by
    intro f
    induction f with
    | zero => intro s _; cases s <;> rfl
    | succ f ih =>
      intro s hs
      cases s with
      | nil => rfl
      | cons c cs =>
        simp only [scanItemsF]
        rw [show matchItem (c :: cs) = none from by simpa using hs 0]
        exact ih cs (fun k => by simpa using hs (k + 1))
  exact key _ s h

theorem matchItem_block {b rest : Str} (hb : b ≠ [])
    (hh : isWs (b.headD ' ') = false) (hbs : '\\' ∉ b)
    (hterm : itemTerm rest = true) :
    matchItem (toL "\\item" ++ (' ' :: (b ++ rest))) = some (b, rest) := by
  have hrest_ne : rest ≠ [] := by
    intro he
    rw [he] at hterm
    simp [itemTerm, isPfx, toL] at hterm
  obtain ⟨x, xs, rfl⟩ : ∃ x xs, b = x :: xs := by
    cases b with
    | nil => exact absurd rfl hb
    | cons x xs => exact ⟨x, xs, rfl⟩
  simp only [List.headD] at hh
  have hdrop : (toL "\\item" ++ (' ' :: ((x :: xs) ++ rest))).drop 5
      = ' ' :: ((x :: xs) ++ rest) := by
    have h5 : (5 : Nat) = (toL "\\item").length := rfl
    rw [h5, List.drop_left]
  have hsp : isWs ' ' = true := rfl
  have htw : (' ' :: ((x :: xs) ++ rest)).takeWhile isWs = [' '] := by
    rw [List.takeWhile_cons, if_pos hsp, List.cons_append, List.takeWhile_cons,
      if_neg (by simp [hh])]
  have hscan : scanSplit itemTerm ((x :: xs) ++ rest) = some (x :: xs, rest) := by
    refine scanSplit_of (x :: xs) hrest_ne hterm ?_
    intro k hk
    obtain ⟨c, cs, heq, hmem⟩ := drop_append_head rest hk
    rw [heq]
    exact itemTerm_false_head (fun h => hbs (h ▸ hmem))
  rw [matchItem, if_pos (isPfx_self_append _ _)]
  simp only [hdrop, htw]
  rw [if_neg (by simp)]
  simp only [List.length_cons, List.length_nil, List.drop_succ_cons, List.drop_zero]
  rw [hscan]

theorem matchItem_unterminated {b : Str} (hb : b ≠ [])
    (hh : isWs (b.headD ' ') = false) (hbs : '\\' ∉ b) :
    matchItem (toL "\\item" ++ (' ' :: b)) = none := by
  obtain ⟨x, xs, rfl⟩ : ∃ x xs, b = x :: xs := by
    cases b with
    | nil => exact absurd rfl hb
    | cons x xs => exact ⟨x, xs, rfl⟩
  simp only [List.headD] at hh
  have hdrop : (toL "\\item" ++ (' ' :: (x :: xs))).drop 5 = ' ' :: (x :: xs) := by
    have h5 : (5 : Nat) = (toL "\\item").length := rfl
    rw [h5, List.drop_left]
  have hsp : isWs ' ' = true := rfl
  have htw : (' ' :: (x :: xs)).takeWhile isWs = [' '] := by
    rw [List.takeWhile_cons, if_pos hsp, List.takeWhile_cons, if_neg (by simp [hh])]
  have hscan : scanSplit itemTerm (x :: xs) = none := by
    refine scanSplit_none_iff.mpr ?_
    intro k hk
    obtain ⟨c, cs, heq, hmem⟩ := drop_head_mem hk
    rw [heq]
    exact itemTerm_false_head (fun h => hbs (h ▸ hmem))
  rw [matchItem, if_pos (isPfx_self_append _ _)]
  simp only [hdrop, htw]
  rw [if_neg (by simp)]
  simp only [List.length_cons, List.length_nil, List.drop_succ_cons, List.drop_zero]
  rw [hscan]

theorem itemsBlock_shape (b : Str) (bs : List Str) :
    itemsBlock (b :: bs) = toL "\\item" ++ (' ' :: (b ++ itemsBlock bs)) := rfl

theorem itemTerm_itemsBlock {bodies : List Str} (h : bodies ≠ []) (rest : Str) :
    itemTerm (itemsBlock bodies ++ rest) = true := by
  cases bodies with
  | nil => exact absurd rfl h
  | cons b bs =>
    have hsh : itemsBlock (b :: bs) ++ rest
        = toL "\\item" ++ ((' ' :: (b ++ itemsBlock bs)) ++ rest) := by
      rw [itemsBlock_shape]
      simp [List.append_assoc]
    rw [hsh]
    simp [itemTerm, isPfx_self_append]

theorem scanItems_block_terminated (bodies : List Str) (rest : Str)
    (h : ∀ b ∈ bodies, b ≠ [] ∧ isWs (b.headD ' ') = false ∧ '\\' ∉ b)
    (hterm : itemTerm rest = true)
    (hrest : ∀ k, matchItem (rest.drop k) = none) :
    scanItems (itemsBlock bodies ++ rest) = bodies := by
  induction bodies with
  | nil => simpa [itemsBlock] using scanItems_none hrest
  | cons b bs ih =>
    obtain ⟨hb, hh, hbs⟩ := h b (List.mem_cons_self b bs)
    have hsh : itemsBlock (b :: bs) ++ rest
        = toL "\\item" ++ (' ' :: (b ++ (itemsBlock bs ++ rest))) := by
      rw [itemsBlock_shape]
      simp [List.append_assoc]
    have hterm' : itemTerm (itemsBlock bs ++ rest) = true := by
      cases hbs' : bs with
      | nil => simpa [itemsBlock] using hterm
      | cons b' bs' => exact itemTerm_itemsBlock (by simp) rest
    rw [hsh, scanItems_cons_match (matchItem_block hb hh hbs hterm')]
    rw [ih (fun x hx => h x (List.mem_cons_of_mem b hx))]

theorem scanItems_block_unterminated (bodies : List Str)
    (h : ∀ b ∈ bodies, b ≠ [] ∧ isWs (b.headD ' ') = false ∧ '\\' ∉ b) :
    scanItems (itemsBlock bodies) = bodies.dropLast := by
  induction bodies with
  | nil => rfl
  | cons b bs ih =>
    obtain ⟨hb, hh, hbs⟩ := h b (List.mem_cons_self b bs)
    cases hbs' : bs with
    | nil =>
      have hsh : itemsBlock [b] = toL "\\item" ++ (' ' :: b) := by
        rw [itemsBlock_shape]
        simp [itemsBlock]
      rw [hsh]
      have hnone : ∀ k, matchItem ((toL "\\item" ++ (' ' :: b)).drop k) = none := by
        intro k
        match k with
        | 0 =>
          simpa using matchItem_unterminated hb hh hbs
        | k + 1 =>
          have hsh₂ : toL "\\item" ++ (' ' :: b) = '\\' :: (toL "item" ++ (' ' :: b)) := rfl
          rw [hsh₂]
          simp only [List.drop_succ_cons]
          refine drops_none_of_not_mem matchItem_nil
            (fun c cs hc => matchItem_none_head hc) ?_ k
          intro hmem
          rcases List.mem_append.mp hmem with h1 | h1
          · simp [toL] at h1
          · rcases List.mem_cons.mp h1 with h2 | h2
            · simp at h2
            · exact hbs h2
      simpa using scanItems_none hnone
    | cons b' bs' =>
      have hsh : itemsBlock (b :: b' :: bs')
          = toL "\\item" ++ (' ' :: (b ++ itemsBlock (b' :: bs'))) := itemsBlock_shape b _
      have hterm' : itemTerm (itemsBlock (b' :: bs')) = true := by
        have := @itemTerm_itemsBlock (b' :: bs') (by simp) []
        simpa using this
      rw [hsh, scanItems_cons_match (matchItem_block hb hh hbs hterm')]
      rw [hbs'] at ih
      rw [ih (fun x hx => h x (by rw [hbs']; exact List.mem_cons_of_mem b hx))]
      exact (List.dropLast_cons_of_ne_nil (by simp)).symm

theorem drops_none_of_bounded {α : Type} {m : Str → Option α} {s : Str}
    (hnil : m [] = none) (h : ∀ k < s.length, m (s.drop k) = none) :
    ∀ k, m (s.drop k) = none := by
  intro k
  by_cases hk : k < s.length
  · exact h k hk
  · rw [List.drop_eq_nil_of_le (by omega)]
    exact hnil

theorem pyStrip_ne_nil {b : Str} (hb : b ≠ []) (hh : isWs (b.headD ' ') = false) :
    pyStrip b ≠ [] := by
  obtain ⟨x, xs, rfl⟩ : ∃ x xs, b = x :: xs := by
    cases b with
    | nil => exact absurd rfl hb
    | cons x xs => exact ⟨x, xs, rfl⟩
  simp only [List.headD] at hh
  have hdw : (x :: xs).dropWhile isWs = x :: xs := by
    rw [List.dropWhile_cons, if_neg (by simp [hh])]
  rw [pyStrip, hdw]
  simp only [dropTrailWs]
  cases dropTrailWs xs with
  | nil => simp [hh]
  | cons d ds => simp

/-- C4 (amended): an item's body is captured only when it is followed by a
`\item` or `\end` terminator.  On a block of `N` item markers with nonempty,
command-free bodies that is closed by `\end\x7bitemize\x7d`, `extract_items`
returns exactly `N` strings in document order, each the Text-Cleaner image of
the raw body (an item whose cleaned text is empty is kept as an empty
string — only items whose RAW body strips to empty are dropped); on the same
block without the closing `\end`, the final item is lost and only the first
`N - 1` are returned. -/
theorem c4_items_terminator (bodies : List Str)
    (h : ∀ b ∈ bodies, b ≠ [] ∧ isWs (b.headD ' ') = false ∧ '\\' ∉ b) :
    extract_itemize_list (itemsBlock bodies ++ toL "\\end\x7bitemize\x7d")
      = bodies.map (fun b => clean_latex (pyStrip b))
    ∧ extract_itemize_list (itemsBlock bodies)
      = bodies.dropLast.map (fun b => clean_latex (pyStrip b)) := by
  have hmapeq : ∀ (l : List Str), (∀ b ∈ l, b ≠ [] ∧ isWs (b.headD ' ') = false ∧ '\\' ∉ b) →
      (l.filterMap fun it =>
        if (pyStrip it).isEmpty then none else some (clean_latex (pyStrip it)))
      = l.map (fun b => clean_latex (pyStrip b)) := by
    intro l hl
    induction l with
    | nil => rfl
    | cons b bs ih =>
      obtain ⟨hb, hh, _⟩ := hl b (List.mem_cons_self b bs)
      have hne := pyStrip_ne_nil hb hh
      simp only [List.filterMap_cons, List.map_cons]
      rw [if_neg (by simpa using hne)]
      rw [ih (fun x hx => hl x (List.mem_cons_of_mem b hx))]
  constructor
  · rw [extract_itemize_list,
      scanItems_block_terminated bodies (toL "\\end\x7bitemize\x7d") h (by decide)
        (drops_none_of_bounded matchItem_nil (by decide))]
    exact hmapeq bodies h
  · rw [extract_itemize_list, scanItems_block_unterminated bodies h]
    refine hmapeq bodies.dropLast ?_
    intro b hb
    exact h b (List.dropLast_subset bodies hb)

/-- C4 witness: two terminated items are both returned; without the closing
`\end` the second is lost. -/
theorem c4_items_terminator_witness :
    extract_itemize_list (itemsBlock [toL "alpha", toL "beta"] ++ toL "\\end\x7bitemize\x7d")
      = [toL "alpha", toL "beta"]
    ∧ extract_itemize_list (itemsBlock [toL "alpha", toL "beta"]) = [toL "alpha"] := by
  have h := c4_items_terminator [toL "alpha", toL "beta"] (by decide)
  constructor
  · rw [h.1]
    decide
  · rw [h.2]
    decide

/-! #### Exhausted fallback chains (per pipeline) -/

/-- C9 (amended): the aggregate result always carries exactly the five keys
`introduction, objectives, methodology, results, conclusion` in that order;
four of the five values are mappings, but the objectives value is a bare
list of strings (see the counterexample); and a pipeline whose fallback
chain is exhausted contributes its empty value — an empty mapping for
introduction/methodology/results/conclusion, the empty list for
objectives. -/
theorem c9_five_keys_and_empty_on_miss (c : Str) :
    dictKeys (extract_for_presentation c)
      = [toL "introduction", toL "objectives", toL "methodology",
         toL "results", toL "conclusion"]
    ∧ (introNotFound c → extract_introduction c = .mapping [])
    ∧ (objectivesNotFound c → extract_objectives c = [])
    ∧ (methodologyNotFound c → extract_methodology c = .mapping [])
    ∧ (resultsNotFound c → extract_results c = .mapping [])
    ∧ (conclusionNotFound c → extract_conclusion c = .mapping []) := by
  refine ⟨rfl, ?_, ?_, ?_, ?_, ?_⟩
  · rintro ⟨h1, h2, h3⟩
    simp [extract_introduction, h1, h2, h3]
  · rintro ⟨h1, h2, h3, h4, h5⟩
    simp [extract_objectives, h1, h2, h3, h4, h5]
  · rintro ⟨h1, h2, h3, h4, h5, h6⟩
    simp [extract_methodology, h1, h2, h3, h4, h5, h6]
  · rintro ⟨h1, h2, h3, h4, h5⟩
    simp [extract_results, h1, h2, h3, h4, h5]
  · rintro ⟨h1, h2⟩
    simp [extract_conclusion, h1, h2]

/-- C9 witness: on a document with none of the sections, all five pipelines
yield their empty values and the five keys are present. -/
theorem c9_five_keys_and_empty_on_miss_witness :
    dictKeys (extract_for_presentation (toL "plain text"))
      = [toL "introduction", toL "objectives", toL "methodology",
         toL "results", toL "conclusion"]
    ∧ extract_introduction (toL "plain text") = .mapping []
    ∧ extract_objectives (toL "plain text") = []
    ∧ extract_methodology (toL "plain text") = .mapping []
    ∧ extract_results (toL "plain text") = .mapping []
    ∧ extract_conclusion (toL "plain text") = .mapping [] := by
  have h := c9_five_keys_and_empty_on_miss (toL "plain text")
  refine ⟨h.1, h.2.1 ⟨by decide, by decide, by decide⟩,
    h.2.2.1 ⟨by decide, by decide, by decide, by decide, by decide⟩,
    h.2.2.2.1 ⟨by decide, by decide, by decide, by decide, by decide, by decide⟩,
    h.2.2.2.2.1 ⟨by decide, by decide, by decide, by decide, by decide⟩,
    h.2.2.2.2.2 ⟨by decide, by decide⟩⟩

/-! #### The cleaning passes are the identity on markup-free text -/

theorem matchCmdArg_none_head {tl cs : Str} {c : Char} (hc : c ≠ '\\') :
    matchCmdArg ('\\' :: tl) (c :: cs) = none := by
  rw [matchCmdArg, if_neg]
  simp only [Bool.not_eq_true]
  exact isPfx_cons_false (by simp only [List.headD]; exact fun h => hc h.symm)

theorem matchCmdArg_none_nil (tl : Str) : matchCmdArg ('\\' :: tl) [] = none := by
  rw [matchCmdArg, if_neg]
  simp [isPfx]

theorem removeCmd_id (cmd : Str) {s : Str} (hcmd : ∃ tl, cmd = '\\' :: tl)
    (hs : '\\' ∉ s) : removeCmd cmd s = s := by
  obtain ⟨tl, rfl⟩ := hcmd
  refine rewriteTop_id (drops_none_of_not_mem ?_ ?_ hs)
  · simp [mRemove, matchCmdArg_none_nil]
  · intro c cs hc
    simp [mRemove, matchCmdArg_none_head hc]

theorem removeCmd2_id (cmd₁ cmd₂ : Str) {s : Str} (h₁ : ∃ tl, cmd₁ = '\\' :: tl)
    (h₂ : ∃ tl, cmd₂ = '\\' :: tl) (hs : '\\' ∉ s) :
    removeCmd2 cmd₁ cmd₂ s = s := by
  obtain ⟨tl₁, rfl⟩ := h₁
  obtain ⟨tl₂, rfl⟩ := h₂
  refine rewriteTop_id (drops_none_of_not_mem ?_ ?_ hs)
  · simp [mRemove2, matchCmdArg_none_nil]
  · intro c cs hc
    simp [mRemove2, matchCmdArg_none_head hc]

theorem unwrapCmd_id (cmd : Str) {s : Str} (hcmd : ∃ tl, cmd = '\\' :: tl)
    (hs : '\\' ∉ s) : unwrapCmd cmd s = s := by
  obtain ⟨tl, rfl⟩ := hcmd
  refine rewriteTop_id (drops_none_of_not_mem ?_ ?_ hs)
  · exact matchCmdArg_none_nil tl
  · intro c cs hc
    exact matchCmdArg_none_head hc

theorem hrefSub_id {s : Str} (hs : '\\' ∉ s) : hrefSub s = s := by
  have hsh : toL "\\href" = '\\' :: toL "href" := rfl
  refine rewriteTop_id (drops_none_of_not_mem ?_ ?_ hs)
  · rw [matchHref, hsh, matchCmdArg_none_nil]
  · intro c cs hc
    rw [matchHref, hsh, matchCmdArg_none_head hc]

theorem removeComments_id {s : Str} (hs : '%' ∉ s) : removeComments s = s := by
  refine rewriteTop_id (drops_none_of_not_mem ?_ ?_ hs)
  · simp [mComment, isPfx]
  · intro c cs hc
    have : isPfx ['%'] (c :: cs) = false :=
      isPfx_cons_false (by simp only [List.headD]; exact fun h => hc h.symm)
    simp [mComment, this]

theorem removeIg_id {s : Str} (hs : '\\' ∉ s) : removeIg s = s := by
  have hsh : toL "\\includegraphics" = '\\' :: toL "includegraphics" := rfl
  refine rewriteTop_id (drops_none_of_not_mem ?_ ?_ hs)
  · simp [mIg, isPfx, toL]
  · intro c cs hc
    have : isPfx (toL "\\includegraphics") (c :: cs) = false := by
      rw [hsh]
      exact isPfx_cons_false (by simp only [List.headD]; exact fun h => hc h.symm)
    simp [mIg, this]

theorem removeEnvBlock_id (beginTok endTok : Str) {s : Str}
    (hb : ∃ tl, beginTok = '\\' :: tl) (hs : '\\' ∉ s) :
    removeEnvBlock beginTok endTok s = s := by
  obtain ⟨tl, rfl⟩ := hb
  refine rewriteTop_id (drops_none_of_not_mem ?_ ?_ hs)
  · simp [mEnvBlock, isPfx]
  · intro c cs hc
    have : isPfx ('\\' :: tl) (c :: cs) = false :=
      isPfx_cons_false (by simp only [List.headD]; exact fun h => hc h.symm)
    simp [mEnvBlock, this]

/-- On text without backslashes and percent signs, `clean_latex` is just
whitespace normalization plus `strip()`. -/
theorem clean_latex_plain {t : Str} (h₁ : '\\' ∉ t) (h₂ : '%' ∉ t) :
    clean_latex t = pyStrip (collapseWs t) := by
  simp only [clean_latex]
  rw [removeCmd_id (toL "\\cite") ⟨toL "cite", rfl⟩ h₁,
    removeCmd2_id (toL "\\citep") (toL "\\cite")
      ⟨toL "citep", rfl⟩ ⟨toL "cite", rfl⟩ h₁,
    removeCmd_id (toL "\\ref") ⟨toL "ref", rfl⟩ h₁,
    removeCmd_id (toL "\\label") ⟨toL "label", rfl⟩ h₁,
    unwrapCmd_id (toL "\\textbf") ⟨toL "textbf", rfl⟩ h₁,
    unwrapCmd_id (toL "\\textit") ⟨toL "textit", rfl⟩ h₁,
    unwrapCmd_id (toL "\\emph") ⟨toL "emph", rfl⟩ h₁,
    unwrapCmd_id (toL "\\texttt") ⟨toL "texttt", rfl⟩ h₁,
    removeCmd_id (toL "\\url") ⟨toL "url", rfl⟩ h₁,
    hrefSub_id h₁, removeComments_id h₂, removeIg_id h₁,
    removeEnvBlock_id (toL "\\begin\x7bfigure\x7d") (toL "\\end\x7bfigure\x7d")
      ⟨toL "begin\x7bfigure\x7d", rfl⟩ h₁,
    removeEnvBlock_id (toL "\\begin\x7btable\x7d") (toL "\\end\x7btable\x7d")
      ⟨toL "begin\x7btable\x7d", rfl⟩ h₁]

/-! #### Whitespace normalization is idempotent -/

theorem squeeze_subset {c : Char} : ∀ {s : Str}, c ∈ squeeze s → c ∈ s := by
  intro s
  induction s with
  | nil => simp [squeeze]
  | cons c₁ cs ih =>
    cases cs with
    | nil => simp [squeeze]
    | cons c₂ cs' =>
      simp only [squeeze]
      split
      · intro h
        exact List.mem_cons_of_mem _ (ih h)
      · intro h
        rcases List.mem_cons.mp h with h1 | h1
        · exact h1 ▸ List.mem_cons_self _ _
        · exact List.mem_cons_of_mem _ (ih h1)

theorem dropTrailWs_subset {c : Char} : ∀ {s : Str}, c ∈ dropTrailWs s → c ∈ s := by
  intro s
  induction s with
  | nil => simp [dropTrailWs]
  | cons c₁ cs ih =>
    cases hd : dropTrailWs cs with
    | nil =>
      simp only [dropTrailWs, hd]
      by_cases hw : isWs c₁ = true
      · rw [if_pos hw]
        simp
      · rw [if_neg hw]
        intro h
        simp only [List.mem_singleton] at h
        exact h ▸ List.mem_cons_self _ _
    | cons d ds =>
      simp only [dropTrailWs, hd]
      intro h
      rcases List.mem_cons.mp h with h1 | h1
      · exact h1 ▸ List.mem_cons_self _ _
      · exact List.mem_cons_of_mem _ (ih (hd ▸ h1))

theorem pyStrip_subset {c : Char} {s : Str} (h : c ∈ pyStrip s) : c ∈ s :=
  (List.dropWhile_sublist _).subset (dropTrailWs_subset h)

theorem squeeze_cons_head : ∀ (cs : Str) (c : Char), ∃ ds, squeeze (c :: cs) = c :: ds := by
  intro cs
  induction cs with
  | nil => intro c; exact ⟨[], rfl⟩
  | cons c₂ cs' ih =>
    intro c
    simp only [squeeze]
    split
    · next hcc =>
      obtain ⟨ds, hds⟩ := ih c₂
      refine ⟨ds, ?_⟩
      rw [hds]
      simp only [Bool.and_eq_true, decide_eq_true_eq] at hcc
      rw [hcc.1, hcc.2]
    · exact ⟨squeeze (c₂ :: cs'), rfl⟩

theorem hasTwoSp_squeeze : ∀ (s : Str), hasTwoSp (squeeze s) = false := by
  intro s
  induction s with
  | nil => rfl
  | cons c cs ih =>
    cases cs with
    | nil => rfl
    | cons c₂ cs' =>
      simp only [squeeze]
      split
      · exact ih
      · next hcc =>
        obtain ⟨ds, hds⟩ := squeeze_cons_head cs' c₂
        rw [hds]
        rw [hds] at ih
        simp only [hasTwoSp, Bool.or_eq_false_iff]
        exact ⟨by simpa using hcc, ih⟩

theorem hasTwoSp_tail {c : Char} {cs : Str} (h : hasTwoSp (c :: cs) = false) :
    hasTwoSp cs = false := by
  cases cs with
  | nil => rfl
  | cons c₂ cs' =>
    simp only [hasTwoSp, Bool.or_eq_false_iff] at h
    exact h.2

theorem hasTwoSp_dropWhile {p : Char → Bool} :
    ∀ {s : Str}, hasTwoSp s = false → hasTwoSp (s.dropWhile p) = false := by
  intro s
  induction s with
  | nil => intro h; exact h
  | cons c cs ih =>
    intro h
    rw [List.dropWhile_cons]
    split
    · exact ih (hasTwoSp_tail h)
    · exact h

theorem dropTrailWs_head (c : Char) (cs : Str) :
    dropTrailWs (c :: cs) = [] ∨ ∃ ds, dropTrailWs (c :: cs) = c :: ds := by
  cases hd : dropTrailWs cs with
  | nil =>
    by_cases hw : isWs c = true
    · left
      simp only [dropTrailWs, hd, if_pos hw]
    · right
      exact ⟨[], by simp only [dropTrailWs, hd, if_neg hw]⟩
  | cons d ds =>
    right
    exact ⟨d :: ds, by simp only [dropTrailWs, hd]⟩

theorem hasTwoSp_dropTrailWs : ∀ {s : Str}, hasTwoSp s = false →
    hasTwoSp (dropTrailWs s) = false := by
  intro s
  induction s with
  | nil => intro h; exact h
  | cons c cs ih =>
    intro h
    cases hd : dropTrailWs cs with
    | nil =>
      simp only [dropTrailWs, hd]
      by_cases hw : isWs c = true
      · rw [if_pos hw]
        rfl
      · rw [if_neg hw]
        rfl
    | cons d ds =>
      simp only [dropTrailWs, hd]
      have htail : hasTwoSp (d :: ds) = false := hd ▸ ih (hasTwoSp_tail h)
      have hcd : (c = ' ' && d = ' ') = false := by
        cases cs with
        | nil => simp [dropTrailWs] at hd
        | cons c₂ cs' =>
          rcases dropTrailWs_head c₂ cs' with h1 | ⟨ds', h2⟩
          · rw [h1] at hd
            exact absurd hd (by simp)
          · rw [h2] at hd
            simp only [List.cons.injEq] at hd
            have hdc : d = c₂ := hd.1.symm
            simp only [hasTwoSp, Bool.or_eq_false_iff] at h
            rw [hdc]
            exact h.1
      simp only [hasTwoSp, Bool.or_eq_false_iff]
      exact ⟨hcd, htail⟩

theorem squeeze_of_noTwo : ∀ {s : Str}, hasTwoSp s = false → squeeze s = s := by
  intro s
  induction s with
  | nil => intro _; rfl
  | cons c cs ih =>
    intro h
    cases cs with
    | nil => rfl
    | cons c₂ cs' =>
      simp only [hasTwoSp, Bool.or_eq_false_iff] at h
      simp only [squeeze]
      rw [if_neg (by simp [h.1])]
      rw [ih h.2]

theorem mapWsSp_of_allSp : ∀ {s : Str}, (∀ c ∈ s, isWs c = true → c = ' ') →
    s.map wsToSp = s := by
  intro s
  induction s with
  | nil => intro _; rfl
  | cons c cs ih =>
    intro h
    simp only [List.map_cons]
    have hc : wsToSp c = c := by
      by_cases hw : isWs c = true
      · rw [h c (List.mem_cons_self c cs) hw, wsToSp]
        rfl
      · rw [wsToSp, if_neg hw]
    rw [hc, ih (fun x hx hw => h x (List.mem_cons_of_mem c hx) hw)]

theorem dropWhile_head_false {p : Char → Bool} :
    ∀ {s : Str} {c : Char} {cs : Str}, s.dropWhile p = c :: cs → p c = false := by
  intro s
  induction s with
  | nil => intro c cs h; simp at h
  | cons x xs ih =>
    intro c cs h
    rw [List.dropWhile_cons] at h
    split at h
    · exact ih h
    · next hx =>
      simp only [List.cons.injEq] at h
      rw [← h.1]
      simpa using hx

theorem dropTrailWs_idem : ∀ (s : Str), dropTrailWs (dropTrailWs s) = dropTrailWs s := by
  intro s
  induction s with
  | nil => rfl
  | cons c cs ih =>
    have hcons : ∀ (x : Char) (xs : Str) (d : Char) (ds : Str),
        dropTrailWs xs = d :: ds → dropTrailWs (x :: xs) = x :: d :: ds := by
      intro x xs d ds h
      have hbody : dropTrailWs (x :: xs) = match dropTrailWs xs with
          | [] => if isWs x = true then [] else [x]
          | e :: es => x :: e :: es := rfl
      rw [hbody, h]
    cases hd : dropTrailWs cs with
    | nil =>
      by_cases hw : isWs c = true
      · simp only [dropTrailWs, hd, if_pos hw]
      · simp only [dropTrailWs, hd, if_neg hw]
    | cons d ds =>
      have hinner : dropTrailWs (d :: ds) = d :: ds := by
        rw [← hd, ih]
      rw [hcons c cs d ds hd, hcons c (d :: ds) d ds hinner]

theorem pyStrip_head_not_ws {s : Str} {c : Char} {cs : Str}
    (h : pyStrip s = c :: cs) : isWs c = false := by
  rw [pyStrip] at h
  cases hdw : s.dropWhile isWs with
  | nil =>
    rw [hdw] at h
    simp [dropTrailWs] at h
  | cons x xs =>
    rw [hdw] at h
    rcases dropTrailWs_head x xs with h1 | ⟨ds, h2⟩
    · rw [h1] at h
      exact absurd h (by simp)
    · rw [h2] at h
      simp only [List.cons.injEq] at h
      rw [← h.1]
      exact dropWhile_head_false hdw

theorem pyStrip_idem (s : Str) : pyStrip (pyStrip s) = pyStrip s := by
  have hdw : (pyStrip s).dropWhile isWs = pyStrip s := by
    cases hp : pyStrip s with
    | nil => rfl
    | cons c cs =>
      rw [List.dropWhile_cons, if_neg]
      simp [pyStrip_head_not_ws hp]
  rw [pyStrip, hdw, pyStrip, dropTrailWs_idem]

theorem mem_collapseWs {c : Char} {t : Str} (h : c ∈ collapseWs t) :
    c ∈ t ∨ c = ' ' := by
  have h2 : c ∈ t.map wsToSp := squeeze_subset h
  obtain ⟨d, hd, hdc⟩ := List.mem_map.mp h2
  by_cases hwd : isWs d = true
  · right
    rw [← hdc, wsToSp, if_pos hwd]
  · left
    rw [wsToSp, if_neg hwd] at hdc
    exact hdc ▸ hd

/-- `pyStrip (collapseWs -)` is idempotent. -/
theorem collapseStrip_idem (t : Str) :
    pyStrip (collapseWs (pyStrip (collapseWs t))) = pyStrip (collapseWs t) := by
  have hAll : ∀ c ∈ pyStrip (collapseWs t), isWs c = true → c = ' ' := by
    intro c hc hws
    have h1 : c ∈ collapseWs t := pyStrip_subset hc
    have h2 : c ∈ t.map wsToSp := squeeze_subset h1
    obtain ⟨d, hd, hdc⟩ := List.mem_map.mp h2
    by_cases hwd : isWs d = true
    · rw [← hdc, wsToSp, if_pos hwd]
    · rw [wsToSp, if_neg hwd] at hdc
      rw [← hdc] at hws
      exact absurd hws hwd
  have hTwo : hasTwoSp (pyStrip (collapseWs t)) = false := by
    rw [pyStrip]
    exact hasTwoSp_dropTrailWs (hasTwoSp_dropWhile (hasTwoSp_squeeze _))
  rw [collapseWs, mapWsSp_of_allSp hAll, squeeze_of_noTwo hTwo, pyStrip_idem]

/-- C8: `clean_latex` is idempotent on text without residual LaTeX markup
(no command introducer `\` and no comment introducer `%` — on such text
every command-removal pass is the identity and cleaning is exactly
whitespace normalization plus `strip()`, which is idempotent). -/
theorem c8_clean_latex_idempotent (t : Str) (h₁ : '\\' ∉ t) (h₂ : '%' ∉ t) :
    clean_latex (clean_latex t) = clean_latex t := by
  have hplain := clean_latex_plain h₁ h₂
  have hbs : '\\' ∉ clean_latex t := by
    rw [hplain]
    intro hmem
    rcases mem_collapseWs (pyStrip_subset hmem) with h | h
    · exact h₁ h
    · exact absurd h (by decide)
  have hpc : '%' ∉ clean_latex t := by
    rw [hplain]
    intro hmem
    rcases mem_collapseWs (pyStrip_subset hmem) with h | h
    · exact h₂ h
    · exact absurd h (by decide)
  rw [clean_latex_plain hbs hpc, hplain, collapseStrip_idem]

/-- C8 witness: idempotence at a concrete markup-free text. -/
theorem c8_clean_latex_idempotent_witness :
    ('\\' ∉ toL "hello  world\n and more") ∧ ('%' ∉ toL "hello  world\n and more")
    ∧ clean_latex (clean_latex (toL "hello  world\n and more"))
        = clean_latex (toL "hello  world\n and more") :=
  ⟨by decide, by decide,
   c8_clean_latex_idempotent (toL "hello  world\n and more") (by decide) (by decide)⟩

/-! #### Exact behaviour of the citation-removal passes -/

theorem mRemove_none_nil {cmd : Str} (h : ∃ tl, cmd = '\\' :: tl) :
    mRemove cmd [] = none := by
  obtain ⟨tl, rfl⟩ := h
  simp [mRemove, matchCmdArg_none_nil]

theorem mRemove_none_head {cmd : Str} (h : ∃ tl, cmd = '\\' :: tl) {c : Char}
    {cs : Str} (hc : c ≠ '\\') : mRemove cmd (c :: cs) = none := by
  obtain ⟨tl, rfl⟩ := h
  simp [mRemove, matchCmdArg_none_head hc]

theorem mRemove2_none_nil {cmd₁ cmd₂ : Str} (h₁ : ∃ tl, cmd₁ = '\\' :: tl)
    (h₂ : ∃ tl, cmd₂ = '\\' :: tl) : mRemove2 cmd₁ cmd₂ [] = none := by
  obtain ⟨tl₁, rfl⟩ := h₁
  obtain ⟨tl₂, rfl⟩ := h₂
  simp [mRemove2, matchCmdArg_none_nil]

theorem mRemove2_none_head {cmd₁ cmd₂ : Str} (h₁ : ∃ tl, cmd₁ = '\\' :: tl)
    (h₂ : ∃ tl, cmd₂ = '\\' :: tl) {c : Char} {cs : Str} (hc : c ≠ '\\') :
    mRemove2 cmd₁ cmd₂ (c :: cs) = none := by
  obtain ⟨tl₁, rfl⟩ := h₁
  obtain ⟨tl₂, rfl⟩ := h₂
  simp [mRemove2, matchCmdArg_none_head hc]

theorem takeWhile_append_stop {p : Char → Bool} {xs : Str} {y : Char} (ys : Str)
    (hxs : ∀ c ∈ xs, p c = true) (hy : p y = false) :
    (xs ++ (y :: ys)).takeWhile p = xs := by
  induction xs with
  | nil =>
    simp only [List.nil_append, List.takeWhile_cons, hy]
    rfl
  | cons x xs' ih =>
    simp only [List.cons_append, List.takeWhile_cons,
      hxs x (List.mem_cons_self x xs'), if_true]
    rw [ih (fun c hc => hxs c (List.mem_cons_of_mem x hc))]

theorem matchCmdArg_token (cmd : Str) {arg : Str} (post : Str)
    (harg₁ : '\x7d' ∉ arg) (harg₂ : arg ≠ []) :
    matchCmdArg cmd (cmd ++ ('\x7b' :: (arg ++ ('\x7d' :: post))))
      = some (arg, post) := by
  rw [matchCmdArg, if_pos (isPfx_self_append _ _), List.drop_left]
  rw [matchBraceArg, if_pos (by simp [isPfx])]
  simp only [List.drop_succ_cons, List.drop_zero]
  have htw : (arg ++ ('\x7d' :: post)).takeWhile (fun c => c ≠ '\x7d') = arg := by
    refine takeWhile_append_stop post ?_ (by simp)
    intro c hc
    simp only [decide_eq_true_eq]
    exact fun h => harg₁ (h ▸ hc)
  rw [htw]
  rw [if_pos]
  · have hdrop : (arg ++ ('\x7d' :: post)).drop (arg.length + 1) = post := by
      have hre : arg ++ ('\x7d' :: post) = (arg ++ ['\x7d']) ++ post := by simp
      have hlen : arg.length + 1 = (arg ++ ['\x7d']).length := by simp
      rw [hre, hlen, List.drop_left]
    rw [hdrop]
  · constructor
    · simp only [List.length_append, List.length_cons]
      omega
    · simpa using harg₂

theorem matchCmdArg_none_arg {cmd : Str} {y : Char} {rest : Str}
    (hy : y ≠ '\x7b') : matchCmdArg cmd (cmd ++ (y :: rest)) = none := by
  rw [matchCmdArg, if_pos (isPfx_self_append _ _), List.drop_left]
  rw [matchBraceArg, if_neg]
  simp only [Bool.not_eq_true]
  exact isPfx_cons_false (by simp only [List.headD]; exact fun h => hy h.symm)

theorem mRemove_token (cmd : Str) {arg : Str} (post : Str)
    (h₁ : '\x7d' ∉ arg) (h₂ : arg ≠ []) :
    mRemove cmd (cmd ++ ('\x7b' :: (arg ++ ('\x7d' :: post)))) = some ([], post) := by
  simp [mRemove, matchCmdArg_token cmd post h₁ h₂]

theorem mRemove2_token (cmd₁ cmd₂ : Str) {arg : Str} (post : Str)
    (h₁ : '\x7d' ∉ arg) (h₂ : arg ≠ []) :
    mRemove2 cmd₁ cmd₂ (cmd₁ ++ ('\x7b' :: (arg ++ ('\x7d' :: post))))
      = some ([], post) := by
  simp [mRemove2, matchCmdArg_token cmd₁ post h₁ h₂]

/-- A pass whose matcher deletes `X`'s head region down to `post` turns
`pre ++ X` into `pre ++ post` when `pre` and `post` contain no trigger. -/
theorem rewriteTop_strip {m : Str → Option (Str × Str)} (hm : Consuming m)
    (hnil : m [] = none) (hcons : ∀ c cs, c ≠ '\\' → m (c :: cs) = none)
    {pre X post : Str} (hpre : '\\' ∉ pre) (hpost : '\\' ∉ post)
    (hmatch : m X = some ([], post)) :
    rewriteTop m (pre ++ X) = pre ++ post := by
  rw [rewriteTop_append hm pre (matcher_none_on_leading hcons hpre _)]
  rw [rewriteTop_match hm hmatch]
  rw [rewriteTop_id (drops_none_of_not_mem hnil hcons hpost)]
  rfl

/-- C6 (amended): on a citation command `\cite\x7barg\x7d` / `\citep\x7barg\x7d`
with a nonempty, single-level argument, embedded in command-free context,
`clean_latex` removes the citation entirely and processes the remaining text
exactly as if the citation had never been there: the result equals
`clean_latex (pre ++ post)`.  In particular no citation-command token
survives; but the surrounding text is preserved only up to the remaining
cleaning passes (comment stripping, whitespace collapsing, `strip()`), not
verbatim — see the counterexample. -/
theorem c6_citation_removed (pre arg post : Str)
    (hpre : '\\' ∉ pre) (hpost : '\\' ∉ post) (hargbs : '\\' ∉ arg)
    (hargbr : '\x7d' ∉ arg) (hargne : arg ≠ []) :
    clean_latex (pre ++ (toL "\\cite\x7b" ++ (arg ++ ('\x7d' :: post))))
      = clean_latex (pre ++ post)
    ∧ clean_latex (pre ++ (toL "\\citep\x7b" ++ (arg ++ ('\x7d' :: post))))
      = clean_latex (pre ++ post) := by
  have hprepost : '\\' ∉ pre ++ post := by
    intro h
    rcases List.mem_append.mp h with h | h
    · exact hpre h
    · exact hpost h
  have hciteSh : ∃ tl, toL "\\cite" = '\\' :: tl := ⟨toL "cite", rfl⟩
  have hcitepSh : ∃ tl, toL "\\citep" = '\\' :: tl := ⟨toL "citep", rfl⟩
  constructor
  · have hmatch : mRemove (toL "\\cite")
        (toL "\\cite\x7b" ++ (arg ++ ('\x7d' :: post))) = some ([], post) := by
      have hX : toL "\\cite\x7b" ++ (arg ++ ('\x7d' :: post))
          = toL "\\cite" ++ ('\x7b' :: (arg ++ ('\x7d' :: post))) := rfl
      rw [hX]
      exact mRemove_token (toL "\\cite") post hargbr hargne
    have hstep1 : removeCmd (toL "\\cite")
        (pre ++ (toL "\\cite\x7b" ++ (arg ++ ('\x7d' :: post)))) = pre ++ post :=
      rewriteTop_strip (mRemove_consumes _) (mRemove_none_nil hciteSh)
        (fun c cs hc => mRemove_none_head hciteSh hc) hpre hpost hmatch
    have hstep1' : removeCmd (toL "\\cite") (pre ++ post) = pre ++ post :=
      removeCmd_id (toL "\\cite") ⟨toL "cite", rfl⟩ hprepost
    simp only [clean_latex]
    rw [hstep1, hstep1']
  · have hnoopY : '\\' ∉ toL "citep\x7b" ++ (arg ++ ('\x7d' :: post)) := by
      have hY1 : '\\' ∉ toL "citep\x7b" := by decide
      intro hmem
      rcases List.mem_append.mp hmem with h | h
      · exact hY1 h
      · rcases List.mem_append.mp h with h | h
        · exact hargbs h
        · rcases List.mem_cons.mp h with h | h
          · exact absurd h (by decide)
          · exact hpost h
    have hstep1noop : removeCmd (toL "\\cite")
        (pre ++ (toL "\\citep\x7b" ++ (arg ++ ('\x7d' :: post))))
        = pre ++ (toL "\\citep\x7b" ++ (arg ++ ('\x7d' :: post))) := by
      simp only [removeCmd]
      rw [rewriteTop_append (mRemove_consumes _) pre
        (matcher_none_on_leading (fun c cs hc => mRemove_none_head hciteSh hc) hpre _)]
      rw [rewriteTop_id]
      intro k
      match k with
      | 0 =>
        have hX : toL "\\citep\x7b" ++ (arg ++ ('\x7d' :: post))
            = toL "\\cite" ++ ('p' :: ('\x7b' :: (arg ++ ('\x7d' :: post)))) := rfl
        simp only [List.drop_zero, hX]
        simp [mRemove, matchCmdArg_none_arg (by decide : ('p' : Char) ≠ '\x7b')]
      | k + 1 =>
        have hX : toL "\\citep\x7b" ++ (arg ++ ('\x7d' :: post))
            = '\\' :: (toL "citep\x7b" ++ (arg ++ ('\x7d' :: post))) := rfl
        rw [hX]
        simp only [List.drop_succ_cons]
        exact drops_none_of_not_mem (mRemove_none_nil hciteSh)
          (fun c cs hc => mRemove_none_head hciteSh hc) hnoopY k
    have hmatch2 : mRemove2 (toL "\\citep") (toL "\\cite")
        (toL "\\citep\x7b" ++ (arg ++ ('\x7d' :: post))) = some ([], post) := by
      have hX : toL "\\citep\x7b" ++ (arg ++ ('\x7d' :: post))
          = toL "\\citep" ++ ('\x7b' :: (arg ++ ('\x7d' :: post))) := rfl
      rw [hX]
      exact mRemove2_token (toL "\\citep") (toL "\\cite") post hargbr hargne
    have hstep2 : removeCmd2 (toL "\\citep") (toL "\\cite")
        (pre ++ (toL "\\citep\x7b" ++ (arg ++ ('\x7d' :: post)))) = pre ++ post :=
      rewriteTop_strip (mRemove2_consumes _ _) (mRemove2_none_nil hcitepSh hciteSh)
        (fun c cs hc => mRemove2_none_head hcitepSh hciteSh hc) hpre hpost hmatch2
    have hstep1' : removeCmd (toL "\\cite") (pre ++ post) = pre ++ post :=
      removeCmd_id (toL "\\cite") ⟨toL "cite", rfl⟩ hprepost
    have hstep2' : removeCmd2 (toL "\\citep") (toL "\\cite") (pre ++ post)
        = pre ++ post :=
      removeCmd2_id (toL "\\citep") (toL "\\cite")
        ⟨toL "citep", rfl⟩ ⟨toL "cite", rfl⟩ hprepost
    simp only [clean_latex]
    rw [hstep1noop, hstep2, hstep1', hstep2']

/-- C6 counterexample: the claim's "surrounding text is preserved verbatim"
fails — `clean_latex` also collapses the double space of the context, so the
result is not the context with just the citation removed. -/
theorem c6_not_verbatim :
    clean_latex (toL "a  b\\cite\x7bx\x7d") = toL "a b"
    ∧ toL "a b" ≠ toL "a  b" := by
  decide

/-- C6 witness: removing a citation embedded in concrete context. -/
theorem c6_citation_removed_witness :
    clean_latex (toL "see \\cite\x7bsmith\x7d here") = clean_latex (toL "see  here")
    ∧ clean_latex (toL "see \\citep\x7bsmith\x7d here") = clean_latex (toL "see  here") := by
  have h := c6_citation_removed (toL "see ") (toL "smith") (toL " here")
    (by decide) (by decide) (by decide) (by decide) (by decide)
  have he₁ : toL "see " ++ (toL "\\cite\x7b" ++ (toL "smith" ++ ('\x7d' :: toL " here")))
      = toL "see \\cite\x7bsmith\x7d here" := by decide
  have he₂ : toL "see " ++ (toL "\\citep\x7b" ++ (toL "smith" ++ ('\x7d' :: toL " here")))
      = toL "see \\citep\x7bsmith\x7d here" := by decide
  have he₃ : toL "see " ++ toL " here" = toL "see  here" := by decide
  obtain ⟨h₁, h₂⟩ := h
  rw [he₁, he₃] at h₁
  rw [he₂, he₃] at h₂
  exact ⟨h₁, h₂⟩

end TemplateGen
